import Mathlib

/-! A concurrent, bounded-depth crawler (`web-crawler.go`).

Shallow embedding of `Crawl`, `main`, `fakeFetcher.Fetch` and the sample
`fetcher` table, together with an interleaving semantics of the goroutines
that `Crawl` spawns.

* Strings are Lean strings, the depth budget is an `Int` (Go `int`; no
  arithmetic other than `depth-1` on a positive value is performed).
* A Go `error` is represented by its message: `none` is `nil`.
* The `map[string]bool` inside `urlCache` is an association list in which the
  first binding of a key is the current one; the mutex is represented by the
  atomicity of the locked section (`locked`).
* A `Fetcher` is a function of the url (the `Fetch` method of the interface).
-/

namespace WebCrawler

/-! ## Data model -/

/-- Result triple of `Fetch`: `(body, urls, err)`. -/
structure FetchResult where
  body : String
  urls : List String
  err : Option String
deriving DecidableEq, Repr

/-- The `Fetcher` interface: its single method `Fetch(url)`. -/
abbrev Fetcher := String → FetchResult

/-- The map of `urlCache` (`url map[string]bool`). -/
abbrev urlCache := List (String × Bool)

/-- Map read `uc.url[k]` with the comma-ok form: `none` when `k` is no key. -/
def urlCache.get (uc : urlCache) (k : String) : Option Bool :=
  List.lookup k uc

/-- Map write `uc.url[k] = b`. -/
def urlCache.set (uc : urlCache) (k : String) (b : Bool) : urlCache :=
  (k, b) :: uc

/-- The keys of the map. -/
def urlCache.keys (uc : urlCache) : List String :=
  uc.map Prod.fst

/-- A line written to standard output: `fmt.Printf("found: %s %q\n", url, body)`
or `fmt.Println(err)`. -/
inductive Line where
  | found (url body : String)
  | error (msg : String)
deriving DecidableEq, Repr

/-- A printed line together with the content (`body`) that the fetch of the
printing task returned, i.e. the dedup key under which it was printed. -/
structure Report where
  key : String
  line : Line
deriving DecidableEq, Repr

/-! ## The locked section of `Crawl` (lines 29-40) -/

/-- Effect of the locked section on the map, the output, and whether `Crawl`
returns from inside it (line 35). -/
structure Locked where
  uc : urlCache
  out : List Report
  returned : Bool
deriving DecidableEq, Repr

/-- Lines 29-40 of `Crawl`, executed while holding `uc.mx`. -/
def locked (url : String) (r : FetchResult) (uc : urlCache) : Locked :=
  match uc.get r.body with
  | none =>
    match r.err with
    | some e => { uc := uc.set r.body false, out := [⟨r.body, .error e⟩], returned := true }
    | none => { uc := uc.set r.body true, out := [⟨r.body, .found url r.body⟩], returned := false }
  | some _ => { uc := uc, out := [], returned := false }

/-! ## `Crawl` as one task: what a single call does, given the map it finds -/

/-- Everything one call of `Crawl` does. -/
structure Outcome where
  /-- the map after the call -/
  uc : urlCache
  /-- the lines it printed -/
  out : List Report
  /-- the goroutines it started, `go Crawl(u, depth-1, ...)`, in order -/
  children : List (String × Int)
  /-- the urls it passed to `fetcher.Fetch` -/
  fetches : List String
  /-- number of `wg.Add(1)` calls -/
  adds : Nat
  /-- number of `wg.Done()` calls -/
  dones : Nat
deriving DecidableEq, Repr

/-- The body of `Crawl(url, depth, fetcher, uc, wg)`. -/
def Crawl (url : String) (depth : Int) (fetcher : Fetcher) (uc : urlCache) : Outcome :=
  if depth ≤ 0 then
    { uc := uc, out := [], children := [], fetches := [], adds := 0, dones := 1 }
  else
    let r := fetcher url
    let l := locked url r uc
    if l.returned then
      { uc := l.uc, out := l.out, children := [], fetches := [url], adds := 0, dones := 1 }
    else
      { uc := l.uc, out := l.out, children := r.urls.map (fun u => (u, depth - 1)),
        fetches := [url], adds := r.urls.length, dones := 1 }

/-! ## The stub fetcher and the sample table -/

/-- Canned result `fakeResult`. -/
structure fakeResult where
  body : String
  urls : List String
deriving DecidableEq, Repr

/-- The table `fakeFetcher` (`map[string]*fakeResult`). -/
abbrev fakeFetcher := List (String × fakeResult)

/-- Method `fakeFetcher.Fetch`. -/
def fakeFetcher.Fetch (f : fakeFetcher) (url : String) : FetchResult :=
  match List.lookup url f with
  | some res => { body := res.body, urls := res.urls, err := none }
  | none => { body := "", urls := [], err := some ("not found: " ++ url) }

/-- The populated table `fetcher`. -/
def fetcher : fakeFetcher :=
  [ ("https://golang.org/",
      ⟨"The Go Programming Language",
       ["https://golang.org/pkg/", "https://golang.org/cmd/"]⟩),
    ("https://golang.org/pkg/",
      ⟨"Packages",
       ["https://golang.org/", "https://golang.org/cmd/",
        "https://golang.org/pkg/fmt/", "https://golang.org/pkg/os/"]⟩),
    ("https://golang.org/pkg/fmt/",
      ⟨"Package fmt", ["https://golang.org/", "https://golang.org/pkg/"]⟩),
    ("https://golang.org/pkg/os/",
      ⟨"Package os", ["https://golang.org/", "https://golang.org/pkg/"]⟩) ]

/-! ## Interleaving semantics of the goroutines -/

/-- Control point of a goroutine running `Crawl`. -/
inductive Task where
  /-- started by `go Crawl(url, depth, ...)`, body not yet entered -/
  | start (url : String) (depth : Int)
  /-- line 28 done with result `r`, about to take the lock -/
  | fetched (url : String) (depth : Int) (r : FetchResult)
  /-- in the loop of lines 41-44, `urls` still to be handled -/
  | spawning (depth : Int) (urls : List String)
  /-- `wg.Add(1)` done for `u`, about to run `go Crawl(u, depth-1, ...)` -/
  | added (depth : Int) (u : String) (rest : List String)
  /-- returning: only the deferred `wg.Done()` is left -/
  | exiting
deriving DecidableEq, Repr

/-- Global state of a traversal. -/
structure State where
  /-- the shared map -/
  uc : urlCache
  /-- standard output so far, oldest first -/
  out : List Report
  /-- the goroutines that were started and have not finished -/
  tasks : List Task
  /-- the `WaitGroup` counter -/
  wg : Int
  /-- the urls passed to `Fetch` so far, oldest first -/
  fetches : List String
  /-- number of `go` statements executed so far (that of `main` included) -/
  spawned : Nat
  /-- number of `Crawl` calls that have returned -/
  finished : Nat
deriving DecidableEq, Repr

/-- One atomic action of task `t`, the other goroutines being `pre` and `post`. -/
def exec (f : Fetcher) (s : State) (pre : List Task) (t : Task) (post : List Task) : State :=
  match t with
  | .start url depth =>
    if depth ≤ 0 then { s with tasks := pre ++ .exiting :: post }
    else { s with tasks := pre ++ .fetched url depth (f url) :: post,
                  fetches := s.fetches ++ [url] }
  | .fetched url depth r =>
    let l := locked url r s.uc
    { s with uc := l.uc, out := s.out ++ l.out,
             tasks := pre ++ (if l.returned then .exiting else .spawning depth r.urls) :: post }
  | .spawning _ [] => { s with tasks := pre ++ .exiting :: post }
  | .spawning depth (u :: rest) =>
    { s with wg := s.wg + 1, tasks := pre ++ .added depth u rest :: post }
  | .added depth u rest =>
    { s with tasks := pre ++ .spawning depth rest :: post ++ [.start u (depth - 1)],
             spawned := s.spawned + 1 }
  | .exiting => { s with wg := s.wg - 1, tasks := pre ++ post, finished := s.finished + 1 }

/-- Split a list at position `i`. -/
def pick {α : Type} : List α → Nat → Option (List α × α × List α)
  | [], _ => none
  | a :: as, 0 => some ([], a, as)
  | a :: as, i + 1 => (pick as i).map fun p => (a :: p.1, p.2.1, p.2.2)

/-- The scheduler lets task number `i` perform its next atomic action. -/
def step (f : Fetcher) (s : State) (i : Nat) : Option State :=
  (pick s.tasks i).map fun p => exec f s p.1 p.2.1 p.2.2

/-- The state `main` creates: empty map, `wg.Add(1)`, `go Crawl(seed, depth, ...)`. -/
def mainInit (seed : String) (depth : Int) : State :=
  { uc := [], out := [], tasks := [.start seed depth], wg := 1, fetches := [],
    spawned := 1, finished := 0 }

/-- Executions: finitely many scheduler choices, one after the other. -/
inductive Steps (f : Fetcher) : State → State → Prop where
  | refl (s : State) : Steps f s s
  | tail {s t u : State} (h : Steps f s t) (i : Nat) (hs : step f t i = some u) : Steps f s u

/-- States of the traversal `main` starts with `seed` and `depth`. -/
def Reachable (f : Fetcher) (seed : String) (depth : Int) (s : State) : Prop :=
  Steps f (mainInit seed depth) s

/-- Run a schedule given as the list of chosen task numbers (a choice that
names no task is skipped). -/
def run (f : Fetcher) (s : State) : List Nat → State
  | [] => s
  | i :: is => run f ((step f s i).getD s) is

/-- Always schedule the first task, `n` times. -/
def runFirst (f : Fetcher) : Nat → State → State
  | 0, s => s
  | n + 1, s => runFirst f n ((step f s 0).getD s)

/-- The run is complete: no goroutine is left. -/
def State.complete (s : State) : Prop := s.tasks = []

instance (s : State) : Decidable s.complete := by
  unfold State.complete; infer_instance

/-- The lines on standard output. -/
def State.lines (s : State) : List Line := s.out.map Report.line

/-- `wg.Wait()` in `main` returns exactly when the counter is zero. -/
def State.waitReturns (s : State) : Prop := s.wg = 0

/-! ## Measures on the goroutines -/

/-- A goroutine that has run `wg.Add(1)` for a child it has not yet started
owes one goroutine to the counter. -/
def Task.owed : Task → Nat
  | .added _ _ _ => 1
  | _ => 0

/-- Number of increments issued for children that are not yet started. -/
def owed (ts : List Task) : Nat := (ts.map Task.owed).sum

/-- Number of atomic actions a call `Crawl(url, n)` and all the goroutines it
starts, directly or not, can still perform. -/
def cost (f : Fetcher) : Nat → String → Nat
  | 0, _ => 2
  | n + 1, u => 4 + ((f u).urls.map (fun v => 2 + cost f n v)).sum

/-- Number of actions left for the loop of lines 41-44 over `urls`, the
children and the final `wg.Done()` included. -/
def loopCost (f : Fetcher) (n : Nat) (urls : List String) : Nat :=
  2 + (urls.map (fun v => 2 + cost f n v)).sum

/-- Number of actions left for a goroutine and its descendants. -/
def Task.weight (f : Fetcher) : Task → Nat
  | .start u d => cost f d.toNat u
  | .fetched _ d r => 1 + loopCost f (d - 1).toNat r.urls
  | .spawning d urls => loopCost f (d - 1).toNat urls
  | .added d u rest => 1 + cost f (d - 1).toNat u + loopCost f (d - 1).toNat rest
  | .exiting => 1

/-- Number of actions left in a state. -/
def weight (f : Fetcher) (s : State) : Nat := (s.tasks.map (Task.weight f)).sum

/-- The counter accounts for every unfinished goroutine and every owed one, and
every goroutine started has finished or is still there. -/
def Acct (s : State) : Prop :=
  s.wg = (s.tasks.length : Int) + (owed s.tasks : Int) ∧
    s.spawned = s.finished + s.tasks.length

/-! ## The tree of goroutines determined by the fetcher -/

/-- The contents returned by the fetches of `Crawl(url, n)` and of all the
goroutines below it when every call with a positive budget runs its loop. -/
def treeKeys (f : Fetcher) : Nat → String → List String
  | 0, _ => []
  | n + 1, u => (f u).body :: (f u).urls.flatMap (treeKeys f n)

/-- The contents still to be returned by fetches of a goroutine and of the
goroutines below it; for a goroutine holding a fetch result, the content it is
about to look up. -/
def Task.keys (f : Fetcher) : Task → List String
  | .start u d => treeKeys f d.toNat u
  | .fetched _ d r => r.body :: r.urls.flatMap (treeKeys f (d - 1).toNat)
  | .spawning d urls => urls.flatMap (treeKeys f (d - 1).toNat)
  | .added d u rest => treeKeys f (d - 1).toNat u ++ rest.flatMap (treeKeys f (d - 1).toNat)
  | .exiting => []

/-- Keys recorded or still to come. -/
def pending (f : Fetcher) (s : State) : List String :=
  s.uc.keys ++ s.tasks.flatMap (Task.keys f)

/-- A failed fetch returns no links. -/
def ErrNoLinks (f : Fetcher) : Prop := ∀ u, (f u).err ≠ none → (f u).urls = []

/-- The ids a goroutine holds satisfy `P`, and a held fetch result is the one
the fetcher gives for the id. -/
def Task.ok (f : Fetcher) (P : String → Prop) : Task → Prop
  | .start u _ => P u
  | .fetched u _ r => P u ∧ r = f u
  | .spawning _ urls => ∀ v ∈ urls, P v
  | .added _ u rest => P u ∧ ∀ v ∈ rest, P v
  | .exiting => True

/-- The line the locked section prints for a fetch result. -/
def lineOf (url : String) (r : FetchResult) : Line :=
  match r.err with
  | some e => .error e
  | none => .found url r.body

/-- A printed line stems from the fetch of some id satisfying `P`. -/
def Report.ok (f : Fetcher) (P : String → Prop) (r : Report) : Prop :=
  ∃ u, P u ∧ (f u).body = r.key ∧ r.line = lineOf u (f u)

/-- Every goroutine and every printed line is accounted for by the fetcher. -/
def Traced (f : Fetcher) (P : String → Prop) (s : State) : Prop :=
  (∀ t ∈ s.tasks, t.ok f P) ∧ (∀ r ∈ s.out, r.ok f P)

/-- Whether a line is a found line. -/
def Line.isFound : Line → Bool
  | .found _ _ => true
  | .error _ => false

/-- Whether a line is an error message. -/
def Line.isError : Line → Bool
  | .found _ _ => false
  | .error _ => true

/-- Whether a line is a found line with content `c`. -/
def Line.isFoundOf (c : String) : Line → Bool
  | .found _ b => b == c
  | .error _ => false

/-- The map entry written together with a printed line. -/
def Report.entry (r : Report) : String × Bool := (r.key, r.line.isFound)

/-- The map holds exactly one entry per printed line, newest first. -/
def Mirror (s : State) : Prop := s.uc = (s.out.map Report.entry).reverse

/-- The state after one goroutine has run a whole call of `Crawl` with outcome
`o` and has gone, the other goroutines being `pre` and `post`. -/
def State.after (s : State) (pre post : List Task) (o : Outcome) : State :=
  { uc := o.uc,
    out := s.out ++ o.out,
    tasks := pre ++ post ++ o.children.map (fun c => Task.start c.1 c.2),
    wg := s.wg + o.adds - o.dones,
    fetches := s.fetches ++ o.fetches,
    spawned := s.spawned + o.children.length,
    finished := s.finished + o.dones }

/-! ## Traversals of depth 1 and the depth bound -/

/-- A goroutine that will neither fetch nor take the lock: a call with budget
0, or the seed call of a depth-1 traversal in or after its loop. -/
def Task.inert : Task → Prop
  | .start _ d => d = 0
  | .fetched _ _ _ => False
  | .spawning d _ => d = 1
  | .added d _ _ => d = 1
  | .exiting => True

/-- The three phases of a traversal of depth 1: the seed call not yet entered;
the seed fetched and waiting for the lock; the seed recorded and printed, only
inert goroutines left. -/
def DepthOne (f : Fetcher) (seed : String) (s : State) : Prop :=
  (s.tasks = [.start seed 1] ∧ s.uc = [] ∧ s.out = [] ∧ s.fetches = []) ∨
  (s.tasks = [.fetched seed 1 (f seed)] ∧ s.uc = [] ∧ s.out = [] ∧ s.fetches = [seed]) ∨
  (s.uc = [((f seed).body, (f seed).err.isNone)] ∧
    s.out = [⟨(f seed).body, lineOf seed (f seed)⟩] ∧ s.fetches = [seed] ∧
    ∀ t ∈ s.tasks, t.inert)

/-- The ids reached from `seed` by a chain of exactly `n` links, each link
being one of the urls the fetcher returns for the id before it. -/
def reach (f : Fetcher) : Nat → String → List String
  | 0, seed => [seed]
  | n + 1, seed => (reach f n seed).flatMap (fun u => (f u).urls)

/-- The id `u` is reached from `seed` through at most `D - 1` links. -/
def nearSeed (f : Fetcher) (seed : String) (D : Int) (u : String) : Prop :=
  ∃ n : Nat, (n : Int) + 1 ≤ D ∧ u ∈ reach f n seed

/-- The budget of a goroutine is at most `D` and the ids it holds are reached
from the seed by as many links as the budget has dropped. -/
def Task.within (f : Fetcher) (seed : String) (D : Int) : Task → Prop
  | .start u d => d ≤ D ∧ u ∈ reach f (D - d).toNat seed
  | .fetched u d r => 0 < d ∧ d ≤ D ∧ u ∈ reach f (D - d).toNat seed ∧ r = f u
  | .spawning d urls => 0 < d ∧ d ≤ D ∧ ∀ v ∈ urls, v ∈ reach f ((D - d).toNat + 1) seed
  | .added d u rest => 0 < d ∧ d ≤ D ∧ u ∈ reach f ((D - d).toNat + 1) seed ∧
      ∀ v ∈ rest, v ∈ reach f ((D - d).toNat + 1) seed
  | .exiting => True

/-- Every goroutine is within the depth bound, and every id fetched or printed
in a found line is near the seed. -/
def Bounded (f : Fetcher) (seed : String) (D : Int) (s : State) : Prop :=
  (∀ t ∈ s.tasks, t.within f seed D) ∧
  (∀ u ∈ s.fetches, nearSeed f seed D u) ∧
  (∀ r ∈ s.out, ∀ u c, r.line = .found u c → nearSeed f seed D u)

/-! ## The locked section statement by statement -/

/-- The first of the two statements by which the locked section reports and
records a new key: `fmt.Println(err)` (line 32) when the fetch failed,
`uc.url[body] = true` (line 37) when it succeeded. -/
def firstOfPair (r : FetchResult) (s : State) : State :=
  match r.err with
  | some e => { s with out := s.out ++ [⟨r.body, .error e⟩] }
  | none => { s with uc := s.uc.set r.body true }

/-- The second statement of the pair and the rest of the locked section:
`uc.url[body] = false`, unlock and return (lines 33-35) when the fetch failed;
`fmt.Printf("found: ...")` and unlock (lines 38-40) when it succeeded. -/
def secondOfPair (url : String) (depth : Int) (r : FetchResult) (s : State)
    (pre post : List Task) : State :=
  match r.err with
  | some _ => { s with uc := s.uc.set r.body false, tasks := pre ++ .exiting :: post }
  | none => { s with out := s.out ++ [⟨r.body, .found url r.body⟩],
                     tasks := pre ++ .spawning depth r.urls :: post }

/-- A state of the traversal at the granularity of single statements: the
state, and the position in `st.tasks` of the goroutine that holds `uc.mx`
between the two statements of lines 32-33 or 37-38, if there is one. -/
structure FState where
  st : State
  held : Option Nat
deriving DecidableEq, Repr

/-- One statement-level action of task `t`, number `i`, the other goroutines
being `pre` and `post`.  A goroutine at the lock whose content is a new key
runs the first statement of its pair and keeps the lock; the holder of the
lock runs the second statement and unlocks; a goroutine at the lock is blocked
while another one holds it; every other action is the one of `exec`. -/
def fexec (f : Fetcher) (F : FState) (i : Nat) (pre : List Task) (t : Task) (post : List Task) :
    Option FState :=
  match F.held, t with
  | none, .fetched url depth r =>
    if F.st.uc.get r.body = none then some ⟨firstOfPair r F.st, some i⟩
    else some ⟨exec f F.st pre (.fetched url depth r) post, none⟩
  | none, t => some ⟨exec f F.st pre t post, none⟩
  | some h, .fetched url depth r =>
    if i = h then some ⟨secondOfPair url depth r F.st pre post, none⟩ else none
  | some h, .exiting => some ⟨exec f F.st pre .exiting post, some (if i < h then h - 1 else h)⟩
  | some h, t => some ⟨exec f F.st pre t post, some h⟩

/-- The scheduler lets task number `i` perform its next statement-level action. -/
def fstep (f : Fetcher) (F : FState) (i : Nat) : Option FState :=
  (pick F.st.tasks i).bind fun p => fexec f F i p.1 p.2.1 p.2.2

/-- The statement-level state `main` creates: the lock is free. -/
def finit (seed : String) (depth : Int) : FState := ⟨mainInit seed depth, none⟩

/-- Statement-level executions. -/
inductive FSteps (f : Fetcher) : FState → FState → Prop where
  | refl (F : FState) : FSteps f F F
  | tail {F G H : FState} (h : FSteps f F G) (i : Nat) (hs : fstep f G i = some H) : FSteps f F H

/-- Statement-level states of the traversal `main` starts with `seed` and `depth`. -/
def FReachable (f : Fetcher) (seed : String) (depth : Int) (F : FState) : Prop :=
  FSteps f (finit seed depth) F

/-- Run a statement-level schedule (a choice that names no task, or a blocked
one, is skipped). -/
def frun (f : Fetcher) (F : FState) : List Nat → FState
  | [] => F
  | i :: is => frun f ((fstep f F i).getD F) is

/-- With the lock free the state is one of the interleaving semantics; with the
lock held it is such a state after the first statement of the holder. -/
def FInv (f : Fetcher) (seed : String) (depth : Int) (F : FState) : Prop :=
  match F.held with
  | none => Reachable f seed depth F.st
  | some h => ∃ s0 pre url d r post, Reachable f seed depth s0 ∧
      s0.tasks = pre ++ .fetched url d r :: post ∧ pre.length = h ∧
      s0.uc.get r.body = none ∧ F.st = firstOfPair r s0

/-! ## Invariants of the shared state -/

/-- The keys of the printed lines are pairwise different and are keys of the map. -/
def KeysOnce (s : State) : Prop :=
  (s.out.map Report.key).Nodup ∧ ∀ k ∈ s.out.map Report.key, k ∈ s.uc.keys

/-- Nothing has been fetched, printed or recorded, and every goroutine is the
seed task, either not yet entered or returning. -/
def Idle (seed : String) (depth : Int) (s : State) : Prop :=
  s.uc = [] ∧ s.out = [] ∧ s.fetches = [] ∧ s.spawned = 1 ∧
    ∀ t ∈ s.tasks, t = .start seed depth ∨ t = .exiting

/-! ## Inputs used in concrete runs -/

/-- A table in which the page `a` has the empty string as content, linked twice
from the seed `s` after a link `m` that is no key of the table. -/
def emptyBodyTable : fakeFetcher :=
  [("s", ⟨"S", ["m", "a", "a"]⟩), ("a", ⟨"", []⟩)]

/-- A retrieval capability whose fetch fails and returns content and a link
together with the error. -/
def failingWithLinks : Fetcher :=
  fun _ => { body := "partial page", urls := ["https://golang.org/pkg/"], err := some "timeout" }

/-- The ids occurring in the sample table `fetcher`, as keys or as links. -/
def sampleIds : List String :=
  ["https://golang.org/", "https://golang.org/pkg/", "https://golang.org/cmd/",
   "https://golang.org/pkg/fmt/", "https://golang.org/pkg/os/"]

/-- A schedule for a traversal whose seed has two links: the seed task runs to
its end, then the task of the second link, then always the first task left. -/
def secondLinkFirst (n : Nat) : List Nat :=
  List.replicate 8 0 ++ List.replicate 3 1 ++ List.replicate n 0

/-! ## Basic facts about the scheduler -/

theorem pick_eq {α : Type} : ∀ (l : List α) (i : Nat) (p : List α × α × List α),
    pick l i = some p → l = p.1 ++ p.2.1 :: p.2.2
  | [], _, _, h => by simp [pick] at h
  | a :: as, 0, p, h => by
    simp only [pick, Option.some.injEq] at h
    subst h; rfl
  | a :: as, i + 1, p, h => by
    simp only [pick, Option.map_eq_some'] at h
    obtain ⟨q, hq, rfl⟩ := h
    have := pick_eq as i q hq
    simp [← this]

theorem pick_isSome {α : Type} : ∀ (l : List α) (i : Nat), i < l.length → (pick l i).isSome
  | [], _, h => by simp at h
  | a :: as, 0, _ => by simp [pick]
  | a :: as, i + 1, h => by
    have := pick_isSome as i (by simpa using h)
    simp [pick, this]

theorem pick_append {α : Type} : ∀ (pre : List α) (a : α) (post : List α),
    pick (pre ++ a :: post) pre.length = some (pre, a, post)
  | [], a, post => by simp [pick]
  | b :: pre, a, post => by simp [pick, pick_append pre a post]

theorem step_eq {f : Fetcher} {s s' : State} {i : Nat} (h : step f s i = some s') :
    ∃ pre t post, s.tasks = pre ++ t :: post ∧ s' = exec f s pre t post := by
  simp only [step, Option.map_eq_some'] at h
  obtain ⟨p, hp, rfl⟩ := h
  exact ⟨p.1, p.2.1, p.2.2, pick_eq _ _ _ hp, rfl⟩

theorem step_of_split {f : Fetcher} {s : State} {pre post : List Task} {t : Task}
    (h : s.tasks = pre ++ t :: post) : step f s pre.length = some (exec f s pre t post) := by
  simp [step, h, pick_append]

theorem step_isSome {f : Fetcher} {s : State} {i : Nat} (h : i < s.tasks.length) :
    (step f s i).isSome := by
  simp [step, pick_isSome _ _ h]

theorem Steps.trans {f : Fetcher} {s t u : State} (h₁ : Steps f s t) (h₂ : Steps f t u) :
    Steps f s u := by
  induction h₂ with
  | refl => exact h₁
  | tail _ i hs ih => exact Steps.tail ih i hs

theorem Steps.single {f : Fetcher} {s s' : State} {i : Nat} (h : step f s i = some s') :
    Steps f s s' :=
  Steps.tail (Steps.refl s) i h

/-- Invariance principle: a property kept by every atomic action holds along
every execution. -/
theorem Steps.preserves {f : Fetcher} {P : State → Prop}
    (hP : ∀ s pre t post, P s → s.tasks = pre ++ t :: post → P (exec f s pre t post))
    {s s' : State} (h : Steps f s s') (h0 : P s) : P s' := by
  induction h with
  | refl => exact h0
  | tail _ i hs ih =>
    obtain ⟨pre, t, post, ht, rfl⟩ := step_eq hs
    exact hP _ _ _ _ ih ht

theorem steps_run (f : Fetcher) : ∀ (sched : List Nat) (s : State), Steps f s (run f s sched)
  | [], s => Steps.refl s
  | i :: is, s => by
    simp only [run]
    cases h : step f s i with
    | none => simpa using steps_run f is s
    | some s' => exact (Steps.single h).trans (by simpa using steps_run f is s')

theorem steps_runFirst (f : Fetcher) : ∀ (n : Nat) (s : State), Steps f s (runFirst f n s)
  | 0, s => Steps.refl s
  | n + 1, s => by
    simp only [runFirst]
    cases h : step f s 0 with
    | none => simpa using steps_runFirst f n s
    | some s' => exact (Steps.single h).trans (by simpa using steps_runFirst f n s')

/-! ## The map and the locked section -/

theorem urlCache.get_eq_none_iff (uc : urlCache) (k : String) :
    uc.get k = none ↔ k ∉ uc.keys := by
  induction uc with
  | nil => simp [urlCache.get, urlCache.keys, List.lookup]
  | cons a uc ih =>
    obtain ⟨a, b⟩ := a
    simp only [urlCache.get, urlCache.keys, List.lookup, List.map_cons, List.mem_cons, not_or] at ih ⊢
    by_cases h : k = a
    · subst h; simp
    · have h' : (k == a) = false := by simpa using h
      simp [h', h, ih]

theorem urlCache.get_set_self (uc : urlCache) (k : String) (b : Bool) :
    (uc.set k b).get k = some b := by
  simp [urlCache.get, urlCache.set, List.lookup]

theorem urlCache.get_set_other (uc : urlCache) {k k' : String} (b : Bool) (h : k' ≠ k) :
    (uc.set k b).get k' = uc.get k' := by
  have h' : (k' == k) = false := by simpa using h
  simp [urlCache.get, urlCache.set, List.lookup, h']

/-- The two ways through the locked section: a new key is recorded and one
line printed, or the key is present and nothing happens. -/
theorem locked_cases (url : String) (r : FetchResult) (uc : urlCache) :
    (uc.get r.body = none ∧ (locked url r uc).uc = uc.set r.body r.err.isNone ∧
        (locked url r uc).returned = r.err.isSome ∧
        (locked url r uc).out =
          [⟨r.body, match r.err with | some e => .error e | none => .found url r.body⟩]) ∨
    (uc.get r.body ≠ none ∧ (locked url r uc).uc = uc ∧ (locked url r uc).returned = false ∧
        (locked url r uc).out = []) := by
  unfold locked
  cases h : uc.get r.body with
  | none => cases he : r.err <;> simp
  | some b => simp

/-- Only the locked section touches the map and the output. -/
theorem exec_shared (f : Fetcher) (s : State) (pre post : List Task) (t : Task) :
    (∃ url depth r, t = .fetched url depth r ∧
        (exec f s pre t post).uc = (locked url r s.uc).uc ∧
        (exec f s pre t post).out = s.out ++ (locked url r s.uc).out) ∨
    ((∀ url depth r, t ≠ .fetched url depth r) ∧
      (exec f s pre t post).uc = s.uc ∧ (exec f s pre t post).out = s.out) := by
  cases t with
  | start url depth => right; simp only [exec]; split <;> simp
  | fetched url depth r => left; exact ⟨url, depth, r, rfl, rfl, rfl⟩
  | spawning depth urls => right; cases urls <;> simp [exec]
  | added depth u rest => right; simp [exec]
  | exiting => right; simp [exec]

/-! ## Every key is printed at most once -/

theorem keysOnce_exec (f : Fetcher) (s : State) (pre : List Task) (t : Task) (post : List Task)
    (h : KeysOnce s) (_ : s.tasks = pre ++ t :: post) : KeysOnce (exec f s pre t post) := by
  rcases exec_shared f s pre post t with ⟨url, depth, r, -, huc, hout⟩ | ⟨-, huc, hout⟩
  · rcases locked_cases url r s.uc with ⟨hnone, hl, -, ho⟩ | ⟨-, hl, -, ho⟩
    · rw [urlCache.get_eq_none_iff] at hnone
      unfold KeysOnce
      rw [huc, hout, hl, ho]
      simp only [List.map_append, List.map_cons, List.map_nil, urlCache.set, urlCache.keys,
        List.mem_append, List.mem_cons, List.mem_singleton, List.not_mem_nil, or_false]
      refine ⟨?_, ?_⟩
      · rw [List.nodup_append]
        refine ⟨h.1, by simp, ?_⟩
        intro a ha hb
        simp only [List.mem_singleton] at hb
        subst hb
        exact hnone (h.2 _ ha)
      · rintro k (hk | hk)
        · exact Or.inr (h.2 k hk)
        · exact Or.inl hk
    · unfold KeysOnce
      rw [huc, hout, hl, ho, List.append_nil]
      exact h
  · unfold KeysOnce
    rw [huc, hout]
    exact h

theorem keysOnce_mainInit (seed : String) (depth : Int) : KeysOnce (mainInit seed depth) := by
  simp [KeysOnce, mainInit]

theorem keysOnce_reachable {f : Fetcher} {seed : String} {depth : Int} {s : State}
    (h : Reachable f seed depth s) : KeysOnce s :=
  Steps.preserves (keysOnce_exec f) h (keysOnce_mainInit seed depth)

/-! ## A traversal whose budget is exhausted from the start -/

theorem idle_exec (f : Fetcher) (seed : String) (depth : Int) (hd : depth ≤ 0)
    (s : State) (pre : List Task) (t : Task) (post : List Task)
    (h : Idle seed depth s) (ht : s.tasks = pre ++ t :: post) :
    Idle seed depth (exec f s pre t post) := by
  obtain ⟨h1, h2, h3, h4, h5⟩ := h
  have hpre : ∀ t' ∈ pre, t' = .start seed depth ∨ t' = .exiting := fun t' ht' =>
    h5 t' (by rw [ht]; simp [ht'])
  have hpost : ∀ t' ∈ post, t' = .start seed depth ∨ t' = .exiting := fun t' ht' =>
    h5 t' (by rw [ht]; simp [ht'])
  rcases h5 t (by rw [ht]; simp) with rfl | rfl
  · simp only [exec, if_pos hd]
    refine ⟨h1, h2, h3, h4, ?_⟩
    intro t' ht'
    simp only [List.mem_append, List.mem_cons] at ht'
    rcases ht' with h | rfl | h
    · exact hpre _ h
    · exact Or.inr rfl
    · exact hpost _ h
  · simp only [exec]
    refine ⟨h1, h2, h3, h4, ?_⟩
    intro t' ht'
    simp only [List.mem_append] at ht'
    rcases ht' with h | h
    · exact hpre _ h
    · exact hpost _ h

theorem idle_mainInit (seed : String) (depth : Int) : Idle seed depth (mainInit seed depth) := by
  simp [Idle, mainInit]

/-! ## Claims about a single call of `Crawl` -/

/-- C3: with a depth budget `depth <= 0` a call of `Crawl` fetches nothing,
prints nothing, leaves the map unchanged and starts no goroutine; it only calls
`wg.Done()` once.  Consequently in every state of a traversal started with such
a depth nothing has been fetched, nothing printed, the map is empty and no
goroutine beyond the seed task has been started. -/
theorem Crawl_depth_exhausted (fetcher : Fetcher) (url : String) (uc : urlCache) (depth : Int)
    (hd : depth ≤ 0) :
    Crawl url depth fetcher uc =
        { uc := uc, out := [], children := [], fetches := [], adds := 0, dones := 1 } ∧
      ∀ s, Reachable fetcher url depth s →
        s.fetches = [] ∧ s.out = [] ∧ s.uc = [] ∧ s.spawned = 1 := by
  refine ⟨by simp [Crawl, hd], ?_⟩
  intro s hs
  have := Steps.preserves (idle_exec fetcher url depth hd) hs (idle_mainInit url depth)
  exact ⟨this.2.2.1, this.2.1, this.1, this.2.2.2.1⟩

/-- Witness for C3: one call with depth 0 on the sample table, and the
traversal of depth 0 run to completion. -/
theorem Crawl_depth_exhausted_witness :
    ((0 : Int) ≤ 0 ∧
      Crawl "https://golang.org/" 0 fetcher.Fetch [("Packages", true)] =
        { uc := [("Packages", true)], out := [], children := [], fetches := [], adds := 0,
          dones := 1 }) ∧
    (run fetcher.Fetch (mainInit "https://golang.org/" 0) [0, 0]).complete ∧
    (run fetcher.Fetch (mainInit "https://golang.org/" 0) [0, 0]).fetches = [] ∧
    (run fetcher.Fetch (mainInit "https://golang.org/" 0) [0, 0]).out = [] :=
  ⟨⟨by decide, (Crawl_depth_exhausted fetcher.Fetch "https://golang.org/" _ 0 (by decide)).1⟩,
    by decide,
    ((Crawl_depth_exhausted fetcher.Fetch "https://golang.org/" [] 0 (by decide)).2 _
      (steps_run _ _ _)).1,
    ((Crawl_depth_exhausted fetcher.Fetch "https://golang.org/" [] 0 (by decide)).2 _
      (steps_run _ _ _)).2.1⟩

/-- C4: with `depth > 0`, a fetch that succeeds with content `c` and links
`links`, and `c` no key of the map: `Crawl` sets `uc.url[c] = true`, changes no
other entry, prints exactly the line `found: url c`, and starts exactly one
goroutine `Crawl(l, depth-1)` per link, in the order returned (duplicates in
`links` are kept, the list is mapped elementwise), after one `wg.Add(1)` each. -/
theorem Crawl_success_new (fetcher : Fetcher) (url : String) (uc : urlCache) (depth : Int)
    (c : String) (links : List String)
    (hd : 0 < depth) (hf : fetcher url = { body := c, urls := links, err := none })
    (hnew : c ∉ uc.keys) :
    (Crawl url depth fetcher uc).uc.get c = some true ∧
    (∀ k, k ≠ c → (Crawl url depth fetcher uc).uc.get k = uc.get k) ∧
    (Crawl url depth fetcher uc).out.map Report.line = [.found url c] ∧
    (Crawl url depth fetcher uc).children = links.map (fun l => (l, depth - 1)) ∧
    (Crawl url depth fetcher uc).children.length = links.length ∧
    (Crawl url depth fetcher uc).adds = links.length ∧
    (Crawl url depth fetcher uc).fetches = [url] ∧
    (Crawl url depth fetcher uc).dones = 1 := by
  have hg : uc.get c = none := (urlCache.get_eq_none_iff uc c).2 hnew
  have hd' : ¬ depth ≤ 0 := not_le.mpr hd
  have hl : locked url { body := c, urls := links, err := none } uc =
      { uc := uc.set c true, out := [⟨c, .found url c⟩], returned := false } := by
    simp [locked, hg]
  simp only [Crawl, if_neg hd', hf, hl]
  refine ⟨urlCache.get_set_self uc c true, fun k hk => urlCache.get_set_other uc true hk, ?_⟩
  simp

/-- Witness for C4: the seed of the sample table on an empty map. -/
theorem Crawl_success_new_witness :
    (0 : Int) < 4 ∧
    (Crawl "https://golang.org/" 4 fetcher.Fetch []).out.map Report.line =
      [.found "https://golang.org/" "The Go Programming Language"] ∧
    (Crawl "https://golang.org/" 4 fetcher.Fetch []).children =
      [("https://golang.org/pkg/", 3), ("https://golang.org/cmd/", 3)] :=
  ⟨by decide,
    (Crawl_success_new fetcher.Fetch "https://golang.org/" [] 4 "The Go Programming Language"
      ["https://golang.org/pkg/", "https://golang.org/cmd/"] (by decide) (by decide)
      (by decide)).2.2.1,
    (Crawl_success_new fetcher.Fetch "https://golang.org/" [] 4 "The Go Programming Language"
      ["https://golang.org/pkg/", "https://golang.org/cmd/"] (by decide) (by decide)
      (by decide)).2.2.2.1⟩

/-- C5: with `depth > 0`, a fetch that fails with message `e`, and the returned
content (the dedup key) no key of the map: `Crawl` sets `uc.url[key] = false`,
changes no other entry, prints exactly one line, the message `e`, starts no
goroutine and issues no `wg.Add`, and returns normally: the call yields its
outcome with its single `wg.Done()`, no error value exists to hand back. -/
theorem Crawl_failure_new (fetcher : Fetcher) (url : String) (uc : urlCache) (depth : Int)
    (e : String)
    (hd : 0 < depth) (hf : (fetcher url).err = some e)
    (hnew : (fetcher url).body ∉ uc.keys) :
    (Crawl url depth fetcher uc).uc.get (fetcher url).body = some false ∧
    (∀ k, k ≠ (fetcher url).body → (Crawl url depth fetcher uc).uc.get k = uc.get k) ∧
    (Crawl url depth fetcher uc).out.map Report.line = [.error e] ∧
    (Crawl url depth fetcher uc).children = [] ∧
    (Crawl url depth fetcher uc).adds = 0 ∧
    (Crawl url depth fetcher uc).fetches = [url] ∧
    (Crawl url depth fetcher uc).dones = 1 := by
  have hg : uc.get (fetcher url).body = none := (urlCache.get_eq_none_iff uc _).2 hnew
  have hd' : ¬ depth ≤ 0 := not_le.mpr hd
  have hl : locked url (fetcher url) uc =
      { uc := uc.set (fetcher url).body false, out := [⟨(fetcher url).body, .error e⟩],
        returned := true } := by
    simp [locked, hg, hf]
  simp only [Crawl, if_neg hd', hl]
  refine ⟨urlCache.get_set_self uc _ false, fun k hk => urlCache.get_set_other uc false hk, ?_⟩
  simp

/-- Witness for C5: the unknown id of the sample table. -/
theorem Crawl_failure_new_witness :
    (0 : Int) < 3 ∧
    (Crawl "https://golang.org/cmd/" 3 fetcher.Fetch
      [("The Go Programming Language", true)]).out.map Report.line =
      [.error "not found: https://golang.org/cmd/"] ∧
    (Crawl "https://golang.org/cmd/" 3 fetcher.Fetch
      [("The Go Programming Language", true)]).children = [] :=
  ⟨by decide,
    (Crawl_failure_new fetcher.Fetch "https://golang.org/cmd/"
      [("The Go Programming Language", true)] 3 "not found: https://golang.org/cmd/"
      (by decide) (by decide) (by decide)).2.2.1,
    (Crawl_failure_new fetcher.Fetch "https://golang.org/cmd/"
      [("The Go Programming Language", true)] 3 "not found: https://golang.org/cmd/"
      (by decide) (by decide) (by decide)).2.2.2.1⟩

/-! ## Keys never leave the map -/

theorem keys_kept {f : Fetcher} {s s' : State} (h : Steps f s s') (k : String)
    (hk : k ∈ s.uc.keys) : k ∈ s'.uc.keys := by
  refine Steps.preserves (P := fun s => k ∈ s.uc.keys) ?_ h hk
  intro s pre t post hs _
  rcases exec_shared f s pre post t with ⟨url, depth, r, -, huc, -⟩ | ⟨-, huc, -⟩
  · rcases locked_cases url r s.uc with ⟨-, hl, -, -⟩ | ⟨-, hl, -, -⟩
    · rw [huc, hl]
      simp only [urlCache.set, urlCache.keys, List.map_cons, List.mem_cons]
      exact Or.inr hs
    · rw [huc, hl]; exact hs
  · rw [huc]; exact hs

/-! ## Claims C1, C2, C6 -/

/-- C1 (as amended): in every state of every traversal, whatever the retrieval
capability, seed, depth and schedule, at most one line has been printed by a
task whose fetch returned content `k`.  For tasks that fetched the content `k`
successfully: the task that runs the locked section while `k` is no key prints
the found line and records `k`; a task that runs it while `k` is a key prints
nothing and leaves the map alone; and a key never leaves the map.  So of two
such tasks at most one prints a found line, and exactly one does when `k` is no
key before the first of them takes the lock. -/
theorem report_key_at_most_once (f : Fetcher) (seed : String) (depth : Int) (s : State)
    (h : Reachable f seed depth s) (k : String) :
    (s.out.map Report.key).count k ≤ 1 ∧
    (∀ (url : String) (r : FetchResult) (uc : urlCache), r.body = k → r.err = none →
      (k ∉ uc.keys → (locked url r uc).out = [⟨k, .found url k⟩] ∧ k ∈ (locked url r uc).uc.keys) ∧
      (k ∈ uc.keys → (locked url r uc).out = [] ∧ (locked url r uc).uc = uc)) ∧
    (∀ s', Steps f s s' → k ∈ s.uc.keys → k ∈ s'.uc.keys) := by
  refine ⟨List.nodup_iff_count_le_one.1 (keysOnce_reachable h).1 k, ?_, fun s' hs hk =>
    keys_kept hs k hk⟩
  intro url r uc hb he
  subst hb
  refine ⟨fun hk => ?_, fun hk => ?_⟩
  · have hg := (urlCache.get_eq_none_iff uc r.body).2 hk
    simp [locked, hg, he, urlCache.set, urlCache.keys]
  · rcases locked_cases url r uc with ⟨hnone, -⟩ | ⟨-, hl, -, ho⟩
    · exact absurd hk ((urlCache.get_eq_none_iff uc r.body).1 hnone)
    · exact ⟨ho, hl⟩

/-- Witness for C1: the complete run of the sample traversal in which the
scheduler always picks the first task. -/
theorem report_key_at_most_once_witness :
    ((runFirst fetcher.Fetch 139 (mainInit "https://golang.org/" 4)).out.map Report.key).count
      "The Go Programming Language" ≤ 1 :=
  (report_key_at_most_once fetcher.Fetch "https://golang.org/" 4 _
    (steps_runFirst fetcher.Fetch 139 _) "The Go Programming Language").1

/-- Counterexample to C1 as stated: in this complete run on `emptyBodyTable` the
failed fetch of `m` records the key `""` first; afterwards two tasks fetch `a`
successfully, both with content `""`, and neither prints a found line. -/
theorem two_successful_fetches_none_found :
    Reachable emptyBodyTable.Fetch "s" 2 (runFirst emptyBodyTable.Fetch 21 (mainInit "s" 2)) ∧
    (runFirst emptyBodyTable.Fetch 21 (mainInit "s" 2)).complete ∧
    (runFirst emptyBodyTable.Fetch 21 (mainInit "s" 2)).fetches = ["s", "m", "a", "a"] ∧
    emptyBodyTable.Fetch "a" = { body := "", urls := [], err := none } ∧
    (runFirst emptyBodyTable.Fetch 21 (mainInit "s" 2)).out =
      [⟨"S", .found "s" "S"⟩, ⟨"", .error "not found: m"⟩] :=
  ⟨steps_runFirst _ _ _, by decide, by decide, by decide, by decide⟩

/-- C2 (evaluation of the code at the failing input): the content of the seed
page is a key of the map already, the fetch succeeds, and `Crawl` still starts
one goroutine per link: after the `if` of line 30 control falls through to the
loop of lines 41-44. -/
theorem Crawl_duplicate_spawns_children :
    (Crawl "https://golang.org/" 2 fetcher.Fetch [("The Go Programming Language", true)]).children =
      [("https://golang.org/pkg/", 1), ("https://golang.org/cmd/", 1)] ∧
    (Crawl "https://golang.org/" 2 fetcher.Fetch [("The Go Programming Language", true)]).out = [] := by
  decide

/-- C6 (evaluation of the code at the failing input): the fetch fails and
returns a link, the returned content is a key of the map already, and `Crawl`
starts a goroutine for the link; with the same fetch and the key absent it
returns at line 35 and starts none. -/
theorem Crawl_failed_duplicate_spawns_children :
    (failingWithLinks "https://golang.org/").err = some "timeout" ∧
    (Crawl "https://golang.org/" 2 failingWithLinks [("partial page", false)]).children =
      [("https://golang.org/pkg/", 1)] ∧
    (Crawl "https://golang.org/" 2 failingWithLinks []).children = [] := by
  decide

/-! ## The `WaitGroup` counter -/

theorem owed_append (l₁ l₂ : List Task) : owed (l₁ ++ l₂) = owed l₁ + owed l₂ := by
  simp [owed]

theorem owed_nil : owed [] = 0 := rfl

theorem owed_cons (t : Task) (l : List Task) : owed (t :: l) = t.owed + owed l := by
  simp [owed]

theorem acct_exec (f : Fetcher) (s : State) (pre : List Task) (t : Task) (post : List Task)
    (h : Acct s) (ht : s.tasks = pre ++ t :: post) : Acct (exec f s pre t post) := by
  obtain ⟨h1, h2⟩ := h
  rw [ht] at h1 h2
  simp only [owed_append, owed_cons, List.length_append, List.length_cons] at h1 h2
  cases t with
  | start url depth =>
    simp only [exec]
    split <;>
      simp only [Acct, owed_append, owed_cons, List.length_append, List.length_cons,
        Task.owed] at h1 h2 ⊢ <;> omega
  | fetched url depth r =>
    simp only [exec]
    split <;>
      simp only [Acct, owed_append, owed_cons, List.length_append, List.length_cons,
        Task.owed] at h1 h2 ⊢ <;> omega
  | spawning depth urls =>
    cases urls <;>
      simp only [exec, Acct, owed_append, owed_cons, List.length_append, List.length_cons,
        Task.owed] at h1 h2 ⊢ <;> omega
  | added depth u rest =>
    simp only [exec, Acct, owed_append, owed_cons, owed_nil, List.length_append,
      List.length_cons, List.length_nil, Task.owed] at h1 h2 ⊢
    omega
  | exiting =>
    simp only [exec, Acct, owed_append, owed_cons, List.length_append, List.length_cons,
      Task.owed] at h1 h2 ⊢
    omega

theorem acct_mainInit (seed : String) (depth : Int) : Acct (mainInit seed depth) := by
  simp [Acct, mainInit, owed, Task.owed]

theorem acct_reachable {f : Fetcher} {seed : String} {depth : Int} {s : State}
    (h : Reachable f seed depth s) : Acct s :=
  Steps.preserves (acct_exec f) h (acct_mainInit seed depth)

theorem pick_nil {α : Type} (i : Nat) : pick ([] : List α) i = none := rfl

/-- With no goroutine left nothing can happen any more. -/
theorem steps_of_complete {f : Fetcher} {s s' : State} (hc : s.tasks = [])
    (h : Steps f s s') : s' = s := by
  induction h with
  | refl => rfl
  | tail _ i hs ih =>
    subst ih
    simp [step, hc, pick_nil] at hs

/-- C7 (as amended): in every state of every traversal the counter equals the
number of goroutines started and not finished plus the number of children whose
`wg.Add(1)` has run and whose `go` statement has not (the increment comes first,
so the counter is never below the number of unfinished goroutines); it is not
zero while a goroutine is left; once it is zero no goroutine is left and the
state, its output included, never changes again; every goroutine started has
finished or is still there.  Every call of `Crawl`, on every path, issues
exactly one `wg.Done()` and exactly one `wg.Add(1)` per child it starts. -/
theorem wg_accounting (f : Fetcher) (seed : String) (depth : Int) (s : State)
    (h : Reachable f seed depth s) :
    s.wg = (s.tasks.length : Int) + (owed s.tasks : Int) ∧
    (s.tasks.length : Int) ≤ s.wg ∧
    (s.tasks ≠ [] → s.wg ≠ 0) ∧
    (s.wg = 0 → s.tasks = [] ∧ ∀ s', Steps f s s' → s' = s ∧ s'.out = s.out) ∧
    s.spawned = s.finished + s.tasks.length ∧
    (∀ (url : String) (d : Int) (uc : urlCache),
      (Crawl url d f uc).dones = 1 ∧
      (Crawl url d f uc).adds = (Crawl url d f uc).children.length) := by
  obtain ⟨h1, h2⟩ := acct_reachable h
  have hlen : s.wg = 0 → s.tasks = [] := by
    intro h0
    have : s.tasks.length = 0 := by omega
    exact List.length_eq_zero.1 this
  refine ⟨h1, by omega, fun hne h0 => hne (hlen h0), fun h0 => ⟨hlen h0, fun s' hs => ?_⟩, h2, ?_⟩
  · have := steps_of_complete (hlen h0) hs
    exact ⟨this, by rw [this]⟩
  · intro url d uc
    unfold Crawl
    split
    · exact ⟨rfl, rfl⟩
    · dsimp only
      split
      · exact ⟨rfl, rfl⟩
      · exact ⟨rfl, by simp⟩

/-- Witness for C7: the complete run of the sample traversal in which the
scheduler always picks the first task. -/
theorem wg_accounting_witness :
    (runFirst fetcher.Fetch 139 (mainInit "https://golang.org/" 4)).wg =
      ((runFirst fetcher.Fetch 139 (mainInit "https://golang.org/" 4)).tasks.length : Int) +
        (owed (runFirst fetcher.Fetch 139 (mainInit "https://golang.org/" 4)).tasks : Int) :=
  (wg_accounting fetcher.Fetch "https://golang.org/" 4 _ (steps_runFirst fetcher.Fetch 139 _)).1

/-- Counterexample to C7 as stated: after the seed task of the sample traversal
has fetched, recorded and run `wg.Add(1)` for its first link, the counter is 2
while one goroutine has been started and none has finished. -/
theorem counter_ahead_of_tasks :
    Reachable fetcher.Fetch "https://golang.org/" 4
      (run fetcher.Fetch (mainInit "https://golang.org/" 4) [0, 0, 0]) ∧
    (run fetcher.Fetch (mainInit "https://golang.org/" 4) [0, 0, 0]).tasks =
      [.added 4 "https://golang.org/pkg/" ["https://golang.org/cmd/"]] ∧
    (run fetcher.Fetch (mainInit "https://golang.org/" 4) [0, 0, 0]).wg = 2 ∧
    (run fetcher.Fetch (mainInit "https://golang.org/" 4) [0, 0, 0]).spawned = 1 ∧
    (run fetcher.Fetch (mainInit "https://golang.org/" 4) [0, 0, 0]).finished = 0 :=
  ⟨steps_run _ _ _, by decide, by decide, by decide, by decide⟩

/-! ## Termination -/

theorem loopCost_nil (f : Fetcher) (n : Nat) : loopCost f n [] = 2 := rfl

theorem loopCost_cons (f : Fetcher) (n : Nat) (u : String) (rest : List String) :
    loopCost f n (u :: rest) = 2 + cost f n u + loopCost f n rest := by
  simp only [loopCost, List.map_cons, List.sum_cons]
  omega

theorem cost_succ (f : Fetcher) (n : Nat) (u : String) :
    cost f (n + 1) u = 2 + loopCost f n (f u).urls := by
  simp only [cost, loopCost]
  omega

theorem weight_eq (f : Fetcher) (s : State) (pre post : List Task) (t : Task)
    (ht : s.tasks = pre ++ t :: post) :
    weight f s = (pre.map (Task.weight f)).sum + t.weight f + (post.map (Task.weight f)).sum := by
  simp only [weight, ht, List.map_append, List.map_cons, List.sum_append, List.sum_cons]
  omega

/-- Every atomic action uses up at least one unit of weight and starts at most
one goroutine. -/
theorem weight_exec (f : Fetcher) (s : State) (pre : List Task) (t : Task) (post : List Task)
    (ht : s.tasks = pre ++ t :: post) :
    weight f (exec f s pre t post) + 1 ≤ weight f s ∧
      (exec f s pre t post).spawned ≤ s.spawned + 1 := by
  rw [weight_eq f s pre post t ht]
  cases t with
  | start url depth =>
    simp only [exec]
    split
    · rename_i hd
      have h0 : depth.toNat = 0 := by omega
      simp only [weight, List.map_append, List.map_cons, List.sum_append, List.sum_cons,
        Task.weight, h0, cost]
      omega
    · rename_i hd
      have h0 : depth.toNat = (depth - 1).toNat + 1 := by omega
      simp only [weight, List.map_append, List.map_cons, List.sum_append, List.sum_cons,
        Task.weight]
      rw [h0, cost_succ]
      omega
  | fetched url depth r =>
    simp only [exec]
    have h2 : 2 ≤ loopCost f (depth - 1).toNat r.urls := by simp [loopCost]
    split <;>
      simp only [weight, List.map_append, List.map_cons, List.sum_append, List.sum_cons,
        Task.weight] <;> omega
  | spawning depth urls =>
    cases urls with
    | nil =>
      simp only [exec, weight, List.map_append, List.map_cons, List.sum_append, List.sum_cons,
        Task.weight, loopCost_nil]
      omega
    | cons u rest =>
      simp only [exec, weight, List.map_append, List.map_cons, List.sum_append, List.sum_cons,
        Task.weight, loopCost_cons]
      omega
  | added depth u rest =>
    simp only [exec, weight, List.map_append, List.map_cons, List.map_nil, List.sum_append,
      List.sum_cons, List.sum_nil, Task.weight]
    omega
  | exiting =>
    simp only [exec, weight, List.map_append, List.sum_append, Task.weight]
    omega

theorem weight_step {f : Fetcher} {s s' : State} {i : Nat} (h : step f s i = some s') :
    weight f s' + 1 ≤ weight f s ∧ s'.spawned ≤ s.spawned + 1 := by
  obtain ⟨pre, t, post, ht, rfl⟩ := step_eq h
  exact weight_exec f s pre t post ht

theorem step_wellFounded (f : Fetcher) :
    WellFounded (fun s' s : State => ∃ i, step f s i = some s') := by
  refine Subrelation.wf ?_ (measure (weight f)).wf
  intro s' s h
  obtain ⟨i, hi⟩ := h
  have := (weight_step hi).1
  show weight f s' < weight f s
  omega

theorem spawned_bound {f : Fetcher} {s s' : State} (h : Steps f s s') :
    s'.spawned + weight f s' ≤ s.spawned + weight f s := by
  induction h with
  | refl => exact le_refl _
  | tail _ i hs ih =>
    have := weight_step hs
    omega

theorem step_none_iff {f : Fetcher} {s : State} :
    (∀ i, step f s i = none) ↔ s.tasks = [] := by
  constructor
  · intro h
    cases hts : s.tasks with
    | nil => rfl
    | cons t ts =>
      have h0 := h 0
      have : (step f s 0).isSome := step_isSome (by rw [hts]; simp)
      rw [h0] at this
      simp at this
  · intro h i
    simp [step, h, pick_nil]

/-- Scheduling the first task as often as the weight says empties the pool. -/
theorem runFirst_complete (f : Fetcher) : ∀ (n : Nat) (s : State), weight f s ≤ n →
    (runFirst f n s).tasks = []
  | 0, s, h => by
    cases hts : s.tasks with
    | nil => simpa [runFirst] using hts
    | cons t ts =>
      have hsome : (step f s 0).isSome := step_isSome (by rw [hts]; simp)
      obtain ⟨s', hs'⟩ := Option.isSome_iff_exists.1 hsome
      have := (weight_step hs').1
      omega
  | n + 1, s, h => by
    simp only [runFirst]
    cases hs : step f s 0 with
    | none =>
      have hts : s.tasks = [] := by
        cases hts : s.tasks with
        | nil => rfl
        | cons t ts =>
          have hsome : (step f s 0).isSome := step_isSome (by rw [hts]; simp)
          rw [hs] at hsome
          simp at hsome
      have hw : weight f s = 0 := by simp [weight, hts]
      exact runFirst_complete f n s (by omega)
    | some s' =>
      have := (weight_step hs).1
      exact runFirst_complete f n s' (by omega)

/-- C8: termination.  For every retrieval capability (a total function whose
result carries a finite list of links), every seed and every integer depth:
no execution is infinite, whatever the schedule (the step relation is
well-founded, also when links form cycles); the number of goroutines ever
started is bounded; a goroutine that is left can always take its next action;
an execution that cannot continue has no goroutine left, every goroutine
started has finished, and the counter is zero, so that `wg.Wait()` returns; and
from every state such a final state is reached.  The bound `cost` is defined by
recursion on the depth budget. -/
theorem traversal_terminates (f : Fetcher) (seed : String) (depth : Int) :
    WellFounded (fun s' s : State => ∃ i, step f s i = some s') ∧
    (∀ s, Reachable f seed depth s → s.spawned ≤ 1 + cost f depth.toNat seed) ∧
    (∀ s, Reachable f seed depth s → ∀ i, i < s.tasks.length → (step f s i).isSome) ∧
    (∀ s, Reachable f seed depth s → (∀ i, step f s i = none) →
      s.complete ∧ s.finished = s.spawned ∧ s.waitReturns) ∧
    (∀ s, Reachable f seed depth s →
      ∃ s', Steps f s s' ∧ s'.complete ∧ s'.finished = s'.spawned ∧ s'.waitReturns) := by
  have hfinal : ∀ s, Reachable f seed depth s → s.tasks = [] →
      s.complete ∧ s.finished = s.spawned ∧ s.waitReturns := by
    intro s hs hts
    obtain ⟨h1, h2⟩ := acct_reachable hs
    rw [hts] at h1 h2
    refine ⟨hts, by simpa using h2.symm, ?_⟩
    simpa [State.waitReturns, owed] using h1
  refine ⟨step_wellFounded f, ?_, fun s _ i hi => step_isSome hi, ?_, ?_⟩
  · intro s hs
    have := spawned_bound hs
    simp only [mainInit, weight, List.map_cons, List.map_nil, List.sum_cons, List.sum_nil,
      Task.weight] at this
    omega
  · intro s hs hnone
    exact hfinal s hs (step_none_iff.1 hnone)
  · intro s hs
    refine ⟨runFirst f (weight f s) s, steps_runFirst f _ s, ?_⟩
    exact hfinal _ (Steps.trans hs (steps_runFirst f _ s)) (runFirst_complete f _ s (le_refl _))

/-! ## Printed lines and the fetcher -/

theorem exec_fetched (f : Fetcher) (s : State) (pre post : List Task) (url : String)
    (depth : Int) (r : FetchResult) :
    exec f s pre (.fetched url depth r) post =
      { s with uc := (locked url r s.uc).uc, out := s.out ++ (locked url r s.uc).out,
               tasks := pre ++ (if (locked url r s.uc).returned then Task.exiting
                                  else Task.spawning depth r.urls) :: post } := rfl

theorem locked_out_line (url : String) (r : FetchResult) (uc : urlCache) :
    ∀ x ∈ (locked url r uc).out, x = ⟨r.body, lineOf url r⟩ := by
  intro x hx
  rcases locked_cases url r uc with ⟨-, -, -, ho⟩ | ⟨-, -, -, ho⟩
  · rw [ho] at hx
    simp only [List.mem_singleton] at hx
    rw [hx, lineOf]
  · rw [ho] at hx
    simp at hx

theorem traced_exec (f : Fetcher) (P : String → Prop)
    (hP : ∀ u, P u → ∀ v ∈ (f u).urls, P v)
    (s : State) (pre : List Task) (t : Task) (post : List Task)
    (h : Traced f P s) (ht : s.tasks = pre ++ t :: post) : Traced f P (exec f s pre t post) := by
  obtain ⟨h1, h2⟩ := h
  have hpre : ∀ a ∈ pre, a.ok f P := fun a ha => h1 a (by rw [ht]; simp [ha])
  have hpost : ∀ a ∈ post, a.ok f P := fun a ha => h1 a (by rw [ht]; simp [ha])
  have hcur : t.ok f P := h1 t (by rw [ht]; simp)
  have hrepl : ∀ (t' : Task), t'.ok f P → ∀ a ∈ pre ++ t' :: post, a.ok f P := by
    intro t' ht' a ha
    simp only [List.mem_append, List.mem_cons] at ha
    rcases ha with ha | rfl | ha
    · exact hpre a ha
    · exact ht'
    · exact hpost a ha
  cases t with
  | start url depth =>
    simp only [exec]
    split
    · exact ⟨hrepl _ trivial, h2⟩
    · exact ⟨hrepl _ ⟨hcur, rfl⟩, h2⟩
  | fetched url depth r =>
    obtain ⟨hPu, hr⟩ := hcur
    rw [exec_fetched]
    refine ⟨?_, ?_⟩
    · apply hrepl
      split
      · trivial
      · intro v hv
        rw [hr] at hv
        exact hP url hPu v hv
    · intro x hx
      simp only [List.mem_append] at hx
      rcases hx with hx | hx
      · exact h2 x hx
      · rw [locked_out_line url r s.uc x hx, hr]
        exact ⟨url, hPu, rfl, rfl⟩
  | spawning depth urls =>
    cases urls with
    | nil => exact ⟨hrepl _ trivial, h2⟩
    | cons u rest =>
      refine ⟨hrepl _ ⟨hcur u (by simp), fun v hv => hcur v (by simp [hv])⟩, h2⟩
  | added depth u rest =>
    refine ⟨?_, h2⟩
    intro a ha
    simp only [exec, List.mem_append, List.mem_cons, List.mem_singleton, List.not_mem_nil,
      or_false] at ha
    rcases ha with (ha | rfl | ha) | rfl
    · exact hpre a ha
    · exact hcur.2
    · exact hpost a ha
    · exact hcur.1
  | exiting =>
    refine ⟨?_, h2⟩
    intro a ha
    simp only [exec, List.mem_append] at ha
    rcases ha with ha | ha
    · exact hpre a ha
    · exact hpost a ha

theorem traced_reachable {f : Fetcher} {P : String → Prop} {seed : String} {depth : Int}
    {s : State} (hP : ∀ u, P u → ∀ v ∈ (f u).urls, P v) (hseed : P seed)
    (h : Reachable f seed depth s) : Traced f P s := by
  refine Steps.preserves (traced_exec f P hP) h ?_
  refine ⟨?_, ?_⟩
  · intro t ht
    simp only [mainInit, List.mem_singleton] at ht
    subst ht
    exact hseed
  · intro r hr
    simp [mainInit] at hr

theorem mirror_exec (f : Fetcher) (s : State) (pre : List Task) (t : Task) (post : List Task)
    (h : Mirror s) (_ : s.tasks = pre ++ t :: post) : Mirror (exec f s pre t post) := by
  unfold Mirror at h ⊢
  rcases exec_shared f s pre post t with ⟨url, depth, r, -, huc, hout⟩ | ⟨-, huc, hout⟩
  · rcases locked_cases url r s.uc with ⟨-, hl, -, ho⟩ | ⟨-, hl, -, ho⟩
    · rw [huc, hout, hl, ho, h]
      cases he : r.err <;>
        simp [urlCache.set, Report.entry, Line.isFound]
    · rw [huc, hout, hl, ho, List.append_nil]
      exact h
  · rw [huc, hout]
    exact h

theorem mirror_reachable {f : Fetcher} {seed : String} {depth : Int} {s : State}
    (h : Reachable f seed depth s) : Mirror s :=
  Steps.preserves (mirror_exec f) h (by simp [Mirror, mainInit])

/-- The keys of the map are the keys of the printed lines. -/
theorem mem_keys_iff_reported {f : Fetcher} {seed : String} {depth : Int} {s : State}
    (h : Reachable f seed depth s) (k : String) :
    k ∈ s.uc.keys ↔ k ∈ s.out.map Report.key := by
  have hm : s.uc = (s.out.map Report.entry).reverse := mirror_reachable h
  rw [hm]
  simp [urlCache.keys, Report.entry]

/-! ## The set of keys recorded or still to come never changes -/

theorem urlCache.mem_keys_of_get_ne_none (uc : urlCache) (k : String) (h : uc.get k ≠ none) :
    k ∈ uc.keys := by
  by_contra hk
  exact h ((urlCache.get_eq_none_iff uc k).2 hk)

theorem pending_exec (f : Fetcher) (hf : ErrNoLinks f) (P : String → Prop)
    (s : State) (pre : List Task) (t : Task) (post : List Task)
    (hcur : t.ok f P) (ht : s.tasks = pre ++ t :: post) (k : String) :
    k ∈ pending f (exec f s pre t post) ↔ k ∈ pending f s := by
  have base : k ∈ pending f s ↔ k ∈ s.uc.keys ∨ k ∈ pre.flatMap (Task.keys f) ∨
      k ∈ t.keys f ∨ k ∈ post.flatMap (Task.keys f) := by
    simp only [pending, ht, List.mem_append, List.flatMap_append, List.flatMap_cons]
  rw [base]
  cases t with
  | start url depth =>
    simp only [exec]
    split
    · rename_i hd
      have h0 : depth.toNat = 0 := by omega
      simp only [pending, List.mem_append, List.flatMap_append, List.flatMap_cons, Task.keys,
        h0, treeKeys]
    · rename_i hd
      have h0 : depth.toNat = (depth - 1).toNat + 1 := by omega
      simp only [pending, List.mem_append, List.flatMap_append, List.flatMap_cons, Task.keys]
      rw [h0]
      simp only [treeKeys]
  | fetched url depth r =>
    obtain ⟨-, hr⟩ := hcur
    rw [exec_fetched]
    rcases locked_cases url r s.uc with ⟨-, hl, hret, -⟩ | ⟨hsome, hl, hret, -⟩
    · cases he : r.err with
      | none =>
        rw [he] at hl hret
        simp only [pending, hl, hret, List.mem_append, List.flatMap_append, List.flatMap_cons,
          Task.keys, urlCache.set, urlCache.keys, List.map_cons, List.mem_cons, Option.isSome_none,
          Bool.false_eq_true, if_false]
        tauto
      | some e =>
        have hu : r.urls = [] := by
          rw [hr]
          apply hf
          rw [← hr, he]
          simp
        rw [he] at hl hret
        simp only [pending, hl, hret, hu, List.mem_append, List.flatMap_append,
          List.flatMap_cons, List.flatMap_nil, Task.keys, urlCache.set, urlCache.keys,
          List.map_cons, List.mem_cons, Option.isSome_some, if_true, List.not_mem_nil]
        tauto
    · have hb : r.body ∈ s.uc.keys := urlCache.mem_keys_of_get_ne_none _ _ hsome
      simp only [pending, hl, hret, List.mem_append, List.flatMap_append, List.flatMap_cons,
        Task.keys, List.mem_cons, Bool.false_eq_true, if_false]
      constructor
      · tauto
      · rintro (h | h | (h | h) | h)
        · exact Or.inl h
        · exact Or.inr (Or.inl h)
        · subst h
          exact Or.inl hb
        · exact Or.inr (Or.inr (Or.inl h))
        · exact Or.inr (Or.inr (Or.inr h))
  | spawning depth urls =>
    cases urls with
    | nil =>
      simp only [exec, pending, List.mem_append, List.flatMap_append, List.flatMap_cons,
        List.flatMap_nil, Task.keys]
    | cons u rest =>
      simp only [exec, pending, List.mem_append, List.flatMap_append, List.flatMap_cons,
        Task.keys]
  | added depth u rest =>
    simp only [exec, pending, List.mem_append, List.flatMap_append, List.flatMap_cons,
      List.flatMap_nil, Task.keys, List.append_nil]
    tauto
  | exiting =>
    simp only [exec, pending, List.mem_append, List.flatMap_append, Task.keys,
      List.not_mem_nil, false_or]

/-- With a fetcher whose failures carry no links, the keys of the map of a
complete run are the contents of the tree of goroutines, whatever the
schedule. -/
theorem keys_of_complete {f : Fetcher} (hf : ErrNoLinks f) {seed : String} {depth : Int}
    {s : State} (h : Reachable f seed depth s) (hc : s.complete) (k : String) :
    k ∈ s.uc.keys ↔ k ∈ treeKeys f depth.toNat seed := by
  have hinv : Traced f (fun _ => True) s ∧
      (k ∈ pending f s ↔ k ∈ pending f (mainInit seed depth)) := by
    refine Steps.preserves
      (P := fun s => Traced f (fun _ => True) s ∧
        (k ∈ pending f s ↔ k ∈ pending f (mainInit seed depth))) ?_ h ?_
    · intro s pre t post hs ht
      refine ⟨traced_exec f _ (fun _ _ _ _ => trivial) s pre t post hs.1 ht, ?_⟩
      rw [pending_exec f hf _ s pre t post (hs.1.1 t (by rw [ht]; simp)) ht k]
      exact hs.2
    · refine ⟨⟨?_, ?_⟩, Iff.rfl⟩
      · intro t ht
        simp only [mainInit, List.mem_singleton] at ht
        subst ht
        trivial
      · intro r hr
        simp [mainInit] at hr
  have h2 := hinv.2
  have hc' : s.tasks = [] := hc
  simp only [pending, hc', mainInit, List.flatMap_nil, List.append_nil, List.flatMap_cons,
    urlCache.keys, List.map_nil, List.nil_append, Task.keys] at h2
  exact h2

/-! ## The stub fetcher -/

theorem lookup_mem {α β : Type} [BEq α] [LawfulBEq α] (k : α) (b : β) :
    ∀ (l : List (α × β)), List.lookup k l = some b → (k, b) ∈ l
  | [], h => by simp [List.lookup] at h
  | (a, c) :: l, h => by
    by_cases hk : k = a
    · subst hk
      simp only [List.lookup, beq_self_eq_true, Option.some.injEq] at h
      subst h
      simp
    · have hk' : (k == a) = false := by simpa using hk
      simp only [List.lookup, hk'] at h
      exact List.mem_cons_of_mem _ (lookup_mem k b l h)

/-- The two results of the stub: the stored pair, or the empty content, no
links and the message naming the id. -/
theorem fakeFetcher.Fetch_cases (tbl : fakeFetcher) (u : String) :
    (∃ res, (u, res) ∈ tbl ∧ tbl.Fetch u = { body := res.body, urls := res.urls, err := none }) ∨
    tbl.Fetch u = { body := "", urls := [], err := some ("not found: " ++ u) } := by
  unfold fakeFetcher.Fetch
  cases h : List.lookup u tbl with
  | none => exact Or.inr rfl
  | some res => exact Or.inl ⟨res, lookup_mem u res tbl h, rfl⟩

theorem fakeFetcher.errNoLinks (tbl : fakeFetcher) : ErrNoLinks tbl.Fetch := by
  intro u hu
  rcases tbl.Fetch_cases u with ⟨res, -, h⟩ | h
  · rw [h] at hu
    exact absurd rfl hu
  · rw [h]

theorem fakeFetcher.body_of_err (tbl : fakeFetcher) (u : String) (h : (tbl.Fetch u).err ≠ none) :
    (tbl.Fetch u).body = "" := by
  rcases tbl.Fetch_cases u with ⟨res, -, h'⟩ | h'
  · rw [h'] at h
    exact absurd rfl h
  · rw [h']

theorem fakeFetcher.body_of_ok (tbl : fakeFetcher) (hne : ∀ p ∈ tbl, p.2.body ≠ "") (u : String)
    (h : (tbl.Fetch u).err = none) : (tbl.Fetch u).body ≠ "" := by
  rcases tbl.Fetch_cases u with ⟨res, hmem, h'⟩ | h'
  · rw [h']
    exact hne _ hmem
  · rw [h'] at h
    simp at h

/-! ## Found lines and keys -/

theorem lineOf_found {u v c : String} {r : FetchResult} (h : lineOf u r = .found v c) :
    r.err = none ∧ v = u ∧ c = r.body := by
  unfold lineOf at h
  cases he : r.err with
  | none =>
    rw [he] at h
    simp only [Line.found.injEq] at h
    exact ⟨rfl, h.1.symm, h.2.symm⟩
  | some e =>
    rw [he] at h
    simp at h

theorem lineOf_error {u e : String} {r : FetchResult} (h : lineOf u r = .error e) :
    r.err = some e := by
  unfold lineOf at h
  cases he : r.err with
  | none =>
    rw [he] at h
    simp at h
  | some e' =>
    rw [he] at h
    simp only [Line.error.injEq] at h
    rw [h]

/-- When no successful and no failed fetch return the same content, a found
line with content `c` has been printed exactly when `c` is a reported key and
the content of some successful fetch. -/
theorem found_iff_key {f : Fetcher} {P : String → Prop} {s : State} (ht : Traced f P s)
    (hdisj : ∀ u v, (f u).err = none → (f v).err ≠ none → (f u).body ≠ (f v).body)
    (c : String) :
    (∃ u, Line.found u c ∈ s.lines) ↔
      (c ∈ s.out.map Report.key ∧ ∃ u, (f u).err = none ∧ (f u).body = c) := by
  constructor
  · rintro ⟨u, hu⟩
    simp only [State.lines, List.mem_map] at hu
    obtain ⟨r, hr, hline⟩ := hu
    obtain ⟨u', -, hkey, hl⟩ := ht.2 r hr
    rw [hline] at hl
    obtain ⟨he, -, hc⟩ := lineOf_found hl.symm
    refine ⟨?_, u', he, hc.symm⟩
    simp only [List.mem_map]
    exact ⟨r, hr, by rw [← hkey, hc]⟩
  · rintro ⟨hk, u, he, hb⟩
    simp only [List.mem_map] at hk
    obtain ⟨r, hr, hkey⟩ := hk
    obtain ⟨u', -, hkey', hl⟩ := ht.2 r hr
    cases he' : (f u').err with
    | none =>
      refine ⟨u', ?_⟩
      simp only [State.lines, List.mem_map]
      refine ⟨r, hr, ?_⟩
      rw [hl, lineOf, he', hkey', hkey]
    | some e =>
      exfalso
      refine hdisj u u' he (by rw [he']; simp) ?_
      rw [hb, hkey', hkey]

/-! ## Claim C9 -/

/-- C9 (as amended): for every table of the stub fetcher, seed and depth, any
two complete runs from `main`'s initial state, under arbitrary schedules,
report the same dedup keys, each once: the key sequences of the two outputs
are permutations of each other.  When no stored content is the empty string
the two runs print found lines for the same set of contents. -/
theorem same_keys_every_schedule (tbl : fakeFetcher) (seed : String) (depth : Int)
    (s₁ s₂ : State)
    (h₁ : Reachable tbl.Fetch seed depth s₁) (h₂ : Reachable tbl.Fetch seed depth s₂)
    (c₁ : s₁.complete) (c₂ : s₂.complete) :
    (s₁.out.map Report.key).Perm (s₂.out.map Report.key) ∧
    ((∀ p ∈ tbl, p.2.body ≠ "") →
      ∀ c, (∃ u, Line.found u c ∈ s₁.lines) ↔ (∃ u, Line.found u c ∈ s₂.lines)) := by
  have hkeys : ∀ k, k ∈ s₁.out.map Report.key ↔ k ∈ s₂.out.map Report.key := by
    intro k
    rw [← mem_keys_iff_reported h₁ k, ← mem_keys_iff_reported h₂ k,
      keys_of_complete tbl.errNoLinks h₁ c₁ k, keys_of_complete tbl.errNoLinks h₂ c₂ k]
  refine ⟨(List.perm_ext_iff_of_nodup (keysOnce_reachable h₁).1 (keysOnce_reachable h₂).1).2
    hkeys, ?_⟩
  intro hne c
  have hdisj : ∀ u v, (tbl.Fetch u).err = none → (tbl.Fetch v).err ≠ none →
      (tbl.Fetch u).body ≠ (tbl.Fetch v).body := by
    intro u v hu hv
    rw [tbl.body_of_err v hv]
    exact tbl.body_of_ok hne u hu
  have t₁ : Traced tbl.Fetch (fun _ => True) s₁ :=
    traced_reachable (fun _ _ _ _ => trivial) trivial h₁
  have t₂ : Traced tbl.Fetch (fun _ => True) s₂ :=
    traced_reachable (fun _ _ _ _ => trivial) trivial h₂
  rw [found_iff_key t₁ hdisj c, found_iff_key t₂ hdisj c, hkeys c]

/-- Witness for C9: two complete runs of the sample table with depth 2 that
print the error line and the line of `https://golang.org/pkg/` in different
order. -/
theorem same_keys_every_schedule_witness :
    ((runFirst fetcher.Fetch 31 (mainInit "https://golang.org/" 2)).out.map Report.key).Perm
      ((run fetcher.Fetch (mainInit "https://golang.org/" 2) (secondLinkFirst 20)).out.map
        Report.key) ∧
    (runFirst fetcher.Fetch 31 (mainInit "https://golang.org/" 2)).out.map Report.key =
      ["The Go Programming Language", "Packages", ""] ∧
    (run fetcher.Fetch (mainInit "https://golang.org/" 2) (secondLinkFirst 20)).out.map
      Report.key = ["The Go Programming Language", "", "Packages"] :=
  ⟨(same_keys_every_schedule fetcher "https://golang.org/" 2 _ _
      (steps_runFirst fetcher.Fetch 31 _) (steps_run fetcher.Fetch _ _)
      (by decide) (by decide)).1,
    by decide, by decide⟩

/-- Counterexample to C9 as stated: two complete runs on `emptyBodyTable` from
the same initial state.  In the first the failed fetch of `m` takes the key
`""` and the output is a found line and an error message; in the second a
fetch of `a` takes it and the output is two found lines.  The outputs are no
rearrangement of each other and the contents of their found lines differ. -/
theorem schedules_differ_in_reported_contents :
    Reachable emptyBodyTable.Fetch "s" 2 (runFirst emptyBodyTable.Fetch 21 (mainInit "s" 2)) ∧
    Reachable emptyBodyTable.Fetch "s" 2
      (run emptyBodyTable.Fetch (mainInit "s" 2)
        (List.replicate 10 0 ++ List.replicate 4 1 ++ List.replicate 8 0)) ∧
    (runFirst emptyBodyTable.Fetch 21 (mainInit "s" 2)).complete ∧
    (run emptyBodyTable.Fetch (mainInit "s" 2)
        (List.replicate 10 0 ++ List.replicate 4 1 ++ List.replicate 8 0)).complete ∧
    (runFirst emptyBodyTable.Fetch 21 (mainInit "s" 2)).lines =
      [.found "s" "S", .error "not found: m"] ∧
    (run emptyBodyTable.Fetch (mainInit "s" 2)
        (List.replicate 10 0 ++ List.replicate 4 1 ++ List.replicate 8 0)).lines =
      [.found "s" "S", .found "a" ""] :=
  ⟨steps_runFirst _ _ _, steps_run _ _ _, by decide, by decide, by decide, by decide⟩

/-! ## Claim C10: the sample traversal -/

theorem filter_eq_singleton {α : Type} (p : α → Bool) (l : List α) (a : α)
    (h1 : l.countP p = 1) (h2 : ∀ x ∈ l, p x = true → x = a) : l.filter p = [a] := by
  rw [List.countP_eq_length_filter, List.length_eq_one] at h1
  obtain ⟨b, hb⟩ := h1
  have hmem : b ∈ l.filter p := by rw [hb]; simp
  rw [List.mem_filter] at hmem
  rw [hb, h2 b hmem.1 hmem.2]

/-- Lines printed under one key: at most one of them. -/
theorem countP_le_one_of_key {s : State} (hn : (s.out.map Report.key).Nodup) (p : Report → Bool)
    (k : String) (hp : ∀ r ∈ s.out, p r = true → r.key = k) : s.out.countP p ≤ 1 := by
  calc s.out.countP p ≤ s.out.countP (fun r => r.key == k) :=
        List.countP_mono_left (fun r hr h => by simpa using hp r hr h)
    _ = (s.out.map Report.key).count k := by
        rw [List.count_eq_countP, List.countP_map]
        rfl
    _ ≤ 1 := List.nodup_iff_count_le_one.1 hn k

theorem sampleIds_closed :
    ∀ u, u ∈ sampleIds → ∀ v ∈ (fetcher.Fetch u).urls, v ∈ sampleIds := by
  decide

theorem sampleIds_go :
    ∀ u ∈ sampleIds, (fetcher.Fetch u).body = "The Go Programming Language" →
      u = "https://golang.org/" ∧ (fetcher.Fetch u).err = none := by
  decide

theorem sampleIds_err :
    ∀ u ∈ sampleIds, (fetcher.Fetch u).err ≠ none →
      (fetcher.Fetch u).err = some "not found: https://golang.org/cmd/" := by
  decide

theorem sampleIds_empty :
    ∀ u ∈ sampleIds, (fetcher.Fetch u).body = "" → (fetcher.Fetch u).err ≠ none := by
  decide

/-- C10: in every complete run of `main`'s traversal (the table `fetcher`, seed
`https://golang.org/`, depth 4, empty map), whatever the schedule, the found
lines with content `The Go Programming Language` are exactly one line, that of
the seed id, so no later visit of the page reports it again; and the error
lines are exactly one line, `not found: https://golang.org/cmd/`. -/
theorem sample_run_reports (s : State)
    (h : Reachable fetcher.Fetch "https://golang.org/" 4 s) (hc : s.complete) :
    s.lines.filter (Line.isFoundOf "The Go Programming Language") =
      [.found "https://golang.org/" "The Go Programming Language"] ∧
    s.lines.filter Line.isError = [.error "not found: https://golang.org/cmd/"] := by
  have ht : Traced fetcher.Fetch (fun u => u ∈ sampleIds) s :=
    traced_reachable sampleIds_closed (by decide) h
  have hn := (keysOnce_reachable h).1
  have hkey : ∀ k, k ∈ treeKeys fetcher.Fetch (4 : Int).toNat "https://golang.org/" →
      ∃ r ∈ s.out, r.key = k := by
    intro k hk
    have := (mem_keys_iff_reported h k).1 ((keys_of_complete fetcher.errNoLinks h hc k).2 hk)
    simpa only [List.mem_map] using this
  constructor
  · apply filter_eq_singleton
    · apply le_antisymm
      · rw [State.lines, List.countP_map]
        apply countP_le_one_of_key hn _ "The Go Programming Language"
        intro r hr hp
        obtain ⟨u, -, hb, hl⟩ := ht.2 r hr
        simp only [Function.comp_apply, hl, lineOf] at hp
        cases he : (fetcher.Fetch u).err with
        | none =>
          rw [he] at hp
          simp only [Line.isFoundOf, beq_iff_eq] at hp
          rw [← hb, hp]
        | some e =>
          rw [he] at hp
          simp [Line.isFoundOf] at hp
      · obtain ⟨r, hr, hk⟩ := hkey "The Go Programming Language" (by decide)
        obtain ⟨u, hu, hb, hl⟩ := ht.2 r hr
        have he := (sampleIds_go u hu (by rw [hb, hk])).2
        rw [Nat.succ_le_iff, List.countP_pos_iff]
        refine ⟨r.line, ?_, ?_⟩
        · simp only [State.lines, List.mem_map]
          exact ⟨r, hr, rfl⟩
        · rw [hl, lineOf, he]
          simp [Line.isFoundOf, hb, hk]
    · intro x hx hp
      simp only [State.lines, List.mem_map] at hx
      obtain ⟨r, hr, rfl⟩ := hx
      obtain ⟨u, hu, hb, hl⟩ := ht.2 r hr
      rw [hl, lineOf] at hp ⊢
      cases he : (fetcher.Fetch u).err with
      | none =>
        rw [he] at hp
        simp only [Line.isFoundOf, beq_iff_eq] at hp
        simp only [he, hp]
        rw [(sampleIds_go u hu hp).1]
      | some e =>
        rw [he] at hp
        simp [Line.isFoundOf] at hp
  · apply filter_eq_singleton
    · apply le_antisymm
      · rw [State.lines, List.countP_map]
        apply countP_le_one_of_key hn _ ""
        intro r hr hp
        obtain ⟨u, -, hb, hl⟩ := ht.2 r hr
        simp only [Function.comp_apply, hl, lineOf] at hp
        cases he : (fetcher.Fetch u).err with
        | none =>
          rw [he] at hp
          simp [Line.isError] at hp
        | some e =>
          rw [← hb]
          exact fakeFetcher.body_of_err fetcher u (by rw [he]; simp)
      · obtain ⟨r, hr, hk⟩ := hkey "" (by decide)
        obtain ⟨u, hu, hb, hl⟩ := ht.2 r hr
        have he := sampleIds_err u hu (sampleIds_empty u hu (by rw [hb, hk]))
        rw [Nat.succ_le_iff, List.countP_pos_iff]
        refine ⟨r.line, ?_, ?_⟩
        · simp only [State.lines, List.mem_map]
          exact ⟨r, hr, rfl⟩
        · rw [hl, lineOf, he]
          rfl
    · intro x hx hp
      simp only [State.lines, List.mem_map] at hx
      obtain ⟨r, hr, rfl⟩ := hx
      obtain ⟨u, hu, hb, hl⟩ := ht.2 r hr
      rw [hl, lineOf] at hp ⊢
      cases he : (fetcher.Fetch u).err with
      | none =>
        rw [he] at hp
        simp [Line.isError] at hp
      | some e =>
        have h2 := sampleIds_err u hu (by rw [he]; simp)
        rw [he] at h2
        injection h2 with h2
        rw [h2]

set_option maxRecDepth 100000 in
/-- Witness for C10: the complete run in which the scheduler always picks the
first task; it fetches the seed page four times and reports it once. -/
theorem sample_run_reports_witness :
    (runFirst fetcher.Fetch 139 (mainInit "https://golang.org/" 4)).complete ∧
    (runFirst fetcher.Fetch 139 (mainInit "https://golang.org/" 4)).fetches.count
      "https://golang.org/" = 4 ∧
    (runFirst fetcher.Fetch 139 (mainInit "https://golang.org/" 4)).lines.filter
      (Line.isFoundOf "The Go Programming Language") =
        [.found "https://golang.org/" "The Go Programming Language"] ∧
    (runFirst fetcher.Fetch 139 (mainInit "https://golang.org/" 4)).lines.filter Line.isError =
      [.error "not found: https://golang.org/cmd/"] :=
  ⟨by decide, by decide,
    (sample_run_reports _ (steps_runFirst fetcher.Fetch 139 _) (by decide)).1,
    (sample_run_reports _ (steps_runFirst fetcher.Fetch 139 _) (by decide)).2⟩

/-! ## One call of `Crawl` inside the interleaving semantics -/

/-- The loop of lines 41-44 followed by the deferred `wg.Done()`, run without
interruption. -/
theorem loop_solo (f : Fetcher) (d : Int) (pre : List Task) :
    ∀ (urls : List String) (s : State) (post : List Task),
      s.tasks = pre ++ .spawning d urls :: post →
      Steps f s
        { uc := s.uc, out := s.out,
          tasks := pre ++ post ++ urls.map (fun u => Task.start u (d - 1)),
          wg := s.wg + urls.length - 1, fetches := s.fetches,
          spawned := s.spawned + urls.length, finished := s.finished + 1 }
  | [], s, post, h => by
    have h1 := @step_of_split f s pre post _ h
    have h2 := @step_of_split f (exec f s pre (.spawning d []) post) pre post .exiting rfl
    have h3 := (Steps.single h1).trans (Steps.single h2)
    simpa [exec] using h3
  | u :: rest, s, post, h => by
    have h1 := @step_of_split f s pre post _ h
    have h2 := @step_of_split f (exec f s pre (.spawning d (u :: rest)) post) pre post
      (.added d u rest) rfl
    have h3 := loop_solo f d pre rest
      (exec f (exec f s pre (.spawning d (u :: rest)) post) pre (.added d u rest) post)
      (post ++ [.start u (d - 1)]) (by simp [exec])
    have h4 := ((Steps.single h1).trans (Steps.single h2)).trans h3
    have e : s.wg + 1 + (rest.length : Int) - 1 = s.wg + ((rest.length : Int) + 1) - 1 := by omega
    simpa [exec, e, Nat.add_assoc, Nat.add_comm 1] using h4

/-- A goroutine that runs its whole call without interruption changes the state
exactly as the outcome of `Crawl` on the current map says. -/
theorem Crawl_solo (f : Fetcher) (s : State) (pre post : List Task) (url : String) (depth : Int)
    (h : s.tasks = pre ++ .start url depth :: post) :
    Steps f s (s.after pre post (Crawl url depth f s.uc)) := by
  have h1 := @step_of_split f s pre post _ h
  by_cases hd : depth ≤ 0
  · have h2 := @step_of_split f (exec f s pre (.start url depth) post) pre post .exiting
      (by simp [exec, hd])
    have h3 := (Steps.single h1).trans (Steps.single h2)
    simpa [exec, hd, State.after, Crawl] using h3
  · have h2 := @step_of_split f (exec f s pre (.start url depth) post) pre post
      (.fetched url depth (f url)) (by simp [exec, hd])
    have h12 := (Steps.single h1).trans (Steps.single h2)
    cases hret : (locked url (f url) s.uc).returned with
    | true =>
      have h3 := @step_of_split f
        (exec f (exec f s pre (.start url depth) post) pre (.fetched url depth (f url)) post)
        pre post .exiting (by simp [exec, hd, hret])
      have h4 := h12.trans (Steps.single h3)
      simpa [exec, hd, hret, State.after, Crawl] using h4
    | false =>
      have h3 := loop_solo f depth pre (f url).urls
        (exec f (exec f s pre (.start url depth) post) pre (.fetched url depth (f url)) post)
        post (by simp [exec, hd, hret])
      have h4 := h12.trans h3
      simpa [exec, hd, hret, State.after, Crawl, List.map_map, Function.comp_def] using h4

/-! ## Association lists as maps -/

theorem lookup_eq_none_iff_not_mem {β : Type} (k : String) :
    ∀ (l : List (String × β)), List.lookup k l = none ↔ k ∉ l.map Prod.fst
  | [] => by simp [List.lookup]
  | (a, b) :: l => by
    by_cases hk : k = a
    · subst hk
      simp [List.lookup]
    · have hk' : (k == a) = false := by simpa using hk
      simp only [List.lookup, hk', List.map_cons, List.mem_cons, hk, false_or]
      exact lookup_eq_none_iff_not_mem k l

theorem lookup_of_mem_nodup {β : Type} (k : String) (b : β) :
    ∀ (l : List (String × β)), (l.map Prod.fst).Nodup → (k, b) ∈ l → List.lookup k l = some b
  | [], _, h => by simp at h
  | (a, c) :: l, hn, h => by
    simp only [List.map_cons, List.nodup_cons] at hn
    simp only [List.mem_cons, Prod.mk.injEq] at h
    rcases h with ⟨rfl, rfl⟩ | h
    · simp [List.lookup]
    · have hne : k ≠ a := by
        rintro rfl
        exact hn.1 (List.mem_map.2 ⟨(k, b), h, rfl⟩)
      have hk' : (k == a) = false := by simpa using hne
      simp only [List.lookup, hk']
      exact lookup_of_mem_nodup k b l hn.2 h

/-! ## Claims C12, C13, C15 -/

/-- C12: the contract of the stub.  `Fetch(u)` returns a nil error exactly when
`u` is a key of the table; then the result is the body and the link list
stored under `u` (for a table with pairwise different keys, as a Go map has: of
any pair stored with key `u`); otherwise the result is the empty body, no
links and the error `not found: ` followed by `u`.  The method is a function
of the table and the id that yields the result triple only, the table is not
among its results. -/
theorem fakeFetcher_Fetch_contract (tbl : fakeFetcher) (u : String) :
    ((tbl.Fetch u).err = none ↔ u ∈ tbl.map Prod.fst) ∧
    (∀ res, List.lookup u tbl = some res →
      tbl.Fetch u = { body := res.body, urls := res.urls, err := none }) ∧
    ((tbl.map Prod.fst).Nodup → ∀ res, (u, res) ∈ tbl →
      tbl.Fetch u = { body := res.body, urls := res.urls, err := none }) ∧
    (u ∉ tbl.map Prod.fst →
      tbl.Fetch u = { body := "", urls := [], err := some ("not found: " ++ u) }) := by
  have hsome : ∀ res, List.lookup u tbl = some res →
      tbl.Fetch u = { body := res.body, urls := res.urls, err := none } := by
    intro res h
    simp [fakeFetcher.Fetch, h]
  have hnone : u ∉ tbl.map Prod.fst →
      tbl.Fetch u = { body := "", urls := [], err := some ("not found: " ++ u) } := by
    intro h
    have := (lookup_eq_none_iff_not_mem u tbl).2 h
    simp [fakeFetcher.Fetch, this]
  refine ⟨?_, hsome, fun hn res hmem => hsome res (lookup_of_mem_nodup u res tbl hn hmem), hnone⟩
  constructor
  · intro he
    by_contra hk
    rw [hnone hk] at he
    simp at he
  · intro hk
    cases h : List.lookup u tbl with
    | none => exact absurd hk ((lookup_eq_none_iff_not_mem u tbl).1 h)
    | some res => rw [hsome res h]

/-- C13: with the stub fetcher, in every state of every traversal at most one
error line has been printed; a visit whose fetch fails while the key `""` is in
the map prints nothing, leaves the map as it is and starts no goroutine; and
the key `""`, once in the map, stays there, so this holds for every failing
visit that takes the lock later. -/
theorem stub_failure_reported_once (tbl : fakeFetcher) (seed : String) (depth : Int) (s : State)
    (h : Reachable tbl.Fetch seed depth s) :
    s.lines.countP Line.isError ≤ 1 ∧
    (∀ (url : String) (d : Int) (uc : urlCache), (tbl.Fetch url).err ≠ none → "" ∈ uc.keys →
      (Crawl url d tbl.Fetch uc).out = [] ∧ (Crawl url d tbl.Fetch uc).uc = uc ∧
      (Crawl url d tbl.Fetch uc).children = []) ∧
    (∀ s', Steps tbl.Fetch s s' → "" ∈ s.uc.keys → "" ∈ s'.uc.keys) := by
  have ht : Traced tbl.Fetch (fun _ => True) s :=
    traced_reachable (fun _ _ _ _ => trivial) trivial h
  refine ⟨?_, ?_, fun s' hs hk => keys_kept hs "" hk⟩
  · rw [State.lines, List.countP_map]
    apply countP_le_one_of_key (keysOnce_reachable h).1 _ ""
    intro r hr hp
    obtain ⟨u, -, hb, hl⟩ := ht.2 r hr
    simp only [Function.comp_apply, hl, lineOf] at hp
    cases he : (tbl.Fetch u).err with
    | none =>
      rw [he] at hp
      simp [Line.isError] at hp
    | some e =>
      rw [← hb]
      exact tbl.body_of_err u (by rw [he]; simp)
  · intro url d uc he hk
    have hb := tbl.body_of_err url he
    have hu := tbl.errNoLinks url he
    unfold Crawl
    split
    · exact ⟨rfl, rfl, rfl⟩
    · rcases locked_cases url (tbl.Fetch url) uc with ⟨hnone, -⟩ | ⟨-, hl, hret, ho⟩
      · rw [hb] at hnone
        exact absurd hk ((urlCache.get_eq_none_iff uc "").1 hnone)
      · simp [hl, hret, ho, hu]

/-- Witness for C13: the complete run of the sample traversal in which the
scheduler always picks the first task, and a failing visit on a map that holds
the key `""`. -/
theorem stub_failure_reported_once_witness :
    (runFirst fetcher.Fetch 139 (mainInit "https://golang.org/" 4)).lines.countP Line.isError ≤ 1 ∧
    (Crawl "https://golang.org/cmd/" 2 fetcher.Fetch [("", false)]).uc = [("", false)] :=
  ⟨(stub_failure_reported_once fetcher "https://golang.org/" 4 _
      (steps_runFirst fetcher.Fetch 139 _)).1,
    ((stub_failure_reported_once fetcher "https://golang.org/" 4 _
      (steps_runFirst fetcher.Fetch 139 _)).2.1 "https://golang.org/cmd/" 2 [("", false)]
      (by decide) (by decide)).2.1⟩

/-- C15: with `depth > 0`, when the content returned by the fetch, successful
or failed, is a key of the map already, `Crawl` leaves the map exactly as it
was, so that every lookup gives what it gave before, and prints nothing. -/
theorem Crawl_duplicate_silent (fetcher : Fetcher) (url : String) (uc : urlCache) (depth : Int)
    (hd : 0 < depth) (hdup : (fetcher url).body ∈ uc.keys) :
    (Crawl url depth fetcher uc).uc = uc ∧
    (∀ k, (Crawl url depth fetcher uc).uc.get k = uc.get k) ∧
    (Crawl url depth fetcher uc).out = [] := by
  have hd' : ¬ depth ≤ 0 := not_le.mpr hd
  rcases locked_cases url (fetcher url) uc with ⟨hnone, -⟩ | ⟨-, hl, hret, ho⟩
  · exact absurd hdup ((urlCache.get_eq_none_iff uc _).1 hnone)
  · have h1 : (Crawl url depth fetcher uc).uc = uc := by simp [Crawl, hd', hl, hret]
    refine ⟨h1, fun k => by rw [h1], ?_⟩
    simp [Crawl, hd', ho, hret]

/-- Witness for C15: the seed page of the sample table visited again, once with
its content recorded as found and once with the failure key recorded. -/
theorem Crawl_duplicate_silent_witness :
    (0 : Int) < 2 ∧
    (Crawl "https://golang.org/" 2 fetcher.Fetch [("The Go Programming Language", true)]).uc =
      [("The Go Programming Language", true)] ∧
    (Crawl "https://golang.org/cmd/" 2 fetcher.Fetch [("", false)]).out = [] :=
  ⟨by decide,
    (Crawl_duplicate_silent fetcher.Fetch "https://golang.org/"
      [("The Go Programming Language", true)] 2 (by decide) (by decide)).1,
    (Crawl_duplicate_silent fetcher.Fetch "https://golang.org/cmd/" [("", false)] 2
      (by decide) (by decide)).2.2⟩

/-! ## What the entries of the map mean -/

/-- An entry of the map is never overwritten or removed. -/
theorem get_kept {f : Fetcher} {s s' : State} (h : Steps f s s') (k : String) (b : Bool)
    (hk : s.uc.get k = some b) : s'.uc.get k = some b := by
  refine Steps.preserves (P := fun s => s.uc.get k = some b) ?_ h hk
  intro s pre t post hs _
  rcases exec_shared f s pre post t with ⟨url, depth, r, -, huc, -⟩ | ⟨-, huc, -⟩
  · rcases locked_cases url r s.uc with ⟨hnone, hl, -, -⟩ | ⟨-, hl, -, -⟩
    · rw [huc, hl]
      have hne : k ≠ r.body := by
        rintro rfl
        rw [hnone] at hs
        simp at hs
      rw [urlCache.get_set_other s.uc _ hne]
      exact hs
    · rw [huc, hl]; exact hs
  · rw [huc]; exact hs

/-- The map holds `k -> b` exactly when a line was printed under the key `k`,
a found line for `b = true` and an error line for `b = false`. -/
theorem get_iff_report {f : Fetcher} {seed : String} {depth : Int} {s : State}
    (h : Reachable f seed depth s) (k : String) (b : Bool) :
    s.uc.get k = some b ↔ ∃ r ∈ s.out, r.key = k ∧ r.line.isFound = b := by
  have hm : s.uc = (s.out.map Report.entry).reverse := mirror_reachable h
  have hn : (s.uc.map Prod.fst).Nodup := by
    rw [hm, List.map_reverse, List.nodup_reverse, List.map_map]
    exact (keysOnce_reachable h).1
  constructor
  · intro hg
    have hmem := lookup_mem k b s.uc hg
    rw [hm, List.mem_reverse, List.mem_map] at hmem
    obtain ⟨r, hr, he⟩ := hmem
    simp only [Report.entry, Prod.mk.injEq] at he
    exact ⟨r, hr, he.1, he.2⟩
  · rintro ⟨r, hr, hkey, hb⟩
    apply lookup_of_mem_nodup k b s.uc hn
    rw [hm, List.mem_reverse, List.mem_map]
    exact ⟨r, hr, by simp [Report.entry, hkey, hb]⟩

/-- In every state of the interleaving semantics, where the locked section is
one action, for every key `k`: `uc.url[k]` is `true` exactly when a found line
with content `k` has been printed; it is `false` exactly when an error line
has been printed by a task whose fetch failed and returned the content `k`;
and an entry, once written, stays in the map with the same boolean. -/
theorem visited_meaning_atomic (f : Fetcher) (seed : String) (depth : Int) (s : State)
    (h : Reachable f seed depth s) (k : String) :
    (s.uc.get k = some true ↔ ∃ u, Line.found u k ∈ s.lines) ∧
    (s.uc.get k = some false ↔
      ∃ u e, (f u).err = some e ∧ (f u).body = k ∧ (⟨k, .error e⟩ : Report) ∈ s.out) ∧
    (∀ s' b, Steps f s s' → s.uc.get k = some b → s'.uc.get k = some b) := by
  have ht : Traced f (fun _ => True) s :=
    traced_reachable (fun _ _ _ _ => trivial) trivial h
  refine ⟨?_, ?_, fun s' b hs hk => get_kept hs k b hk⟩
  · rw [get_iff_report h k true]
    constructor
    · rintro ⟨r, hr, hkey, hb⟩
      obtain ⟨u, -, hbody, hl⟩ := ht.2 r hr
      cases he : (f u).err with
      | none =>
        refine ⟨u, ?_⟩
        simp only [State.lines, List.mem_map]
        refine ⟨r, hr, ?_⟩
        rw [hl, lineOf, he, hbody, hkey]
      | some e =>
        rw [hl, lineOf, he] at hb
        simp [Line.isFound] at hb
    · rintro ⟨u, hu⟩
      simp only [State.lines, List.mem_map] at hu
      obtain ⟨r, hr, hline⟩ := hu
      obtain ⟨u', -, hbody, hl⟩ := ht.2 r hr
      rw [hline] at hl
      obtain ⟨-, -, hc⟩ := lineOf_found hl.symm
      exact ⟨r, hr, by rw [← hbody, hc], by rw [hline]; rfl⟩
  · rw [get_iff_report h k false]
    constructor
    · rintro ⟨r, hr, hkey, hb⟩
      obtain ⟨u, -, hbody, hl⟩ := ht.2 r hr
      cases he : (f u).err with
      | none =>
        rw [hl, lineOf, he] at hb
        simp [Line.isFound] at hb
      | some e =>
        refine ⟨u, e, he, by rw [hbody, hkey], ?_⟩
        have hr' : r = ⟨k, .error e⟩ := by
          cases r with
          | mk key line =>
            simp only at hkey hl
            rw [hkey, hl, lineOf, he]
        rw [← hr']
        exact hr
    · rintro ⟨u, e, -, -, hr⟩
      exact ⟨_, hr, rfl, rfl⟩

/-! ## Claim C11: a traversal of depth 1 -/

theorem eq_of_split_singleton {α : Type} {pre post : List α} {t x : α}
    (h : [x] = pre ++ t :: post) : pre = [] ∧ t = x ∧ post = [] := by
  cases pre with
  | nil =>
    simp only [List.nil_append, List.cons.injEq] at h
    exact ⟨rfl, h.1.symm, h.2.symm⟩
  | cons a pre =>
    simp only [List.cons_append, List.cons.injEq] at h
    have := congrArg List.length h.2
    simp only [List.length_nil, List.length_append, List.length_cons] at this
    omega

theorem depthOne_exec (f : Fetcher) (seed : String)
    (s : State) (pre : List Task) (t : Task) (post : List Task)
    (h : DepthOne f seed s) (ht : s.tasks = pre ++ t :: post) :
    DepthOne f seed (exec f s pre t post) := by
  rcases h with ⟨h1, h2, h3, h4⟩ | ⟨h1, h2, h3, h4⟩ | ⟨h2, h3, h4, h5⟩
  · rw [h1] at ht
    obtain ⟨rfl, rfl, rfl⟩ := eq_of_split_singleton ht
    right; left
    simp [exec, h2, h3, h4]
  · rw [h1] at ht
    obtain ⟨rfl, rfl, rfl⟩ := eq_of_split_singleton ht
    right; right
    rw [exec_fetched, h2, h3]
    have hl : locked seed (f seed) [] =
        { uc := [((f seed).body, (f seed).err.isNone)],
          out := [⟨(f seed).body, lineOf seed (f seed)⟩],
          returned := (f seed).err.isSome } := by
      unfold locked lineOf
      cases he : (f seed).err <;> simp [urlCache.get, urlCache.set, List.lookup]
    rw [hl]
    refine ⟨rfl, rfl, h4, ?_⟩
    intro t ht
    simp only [List.nil_append, List.mem_singleton] at ht
    subst ht
    split <;> simp [Task.inert]
  · right; right
    have hpre : ∀ a ∈ pre, a.inert := fun a ha => h5 a (by rw [ht]; simp [ha])
    have hpost : ∀ a ∈ post, a.inert := fun a ha => h5 a (by rw [ht]; simp [ha])
    have hcur : t.inert := h5 t (by rw [ht]; simp)
    have hrepl : ∀ (t' : Task), t'.inert → ∀ a ∈ pre ++ t' :: post, a.inert := by
      intro t' ht' a ha
      simp only [List.mem_append, List.mem_cons] at ha
      rcases ha with ha | rfl | ha
      · exact hpre a ha
      · exact ht'
      · exact hpost a ha
    cases t with
    | start url depth =>
      have hd : depth ≤ 0 := le_of_eq hcur
      simp only [exec, if_pos hd]
      exact ⟨h2, h3, h4, hrepl _ trivial⟩
    | fetched url depth r => exact absurd hcur id
    | spawning depth urls =>
      cases urls with
      | nil => exact ⟨h2, h3, h4, hrepl _ trivial⟩
      | cons u rest => exact ⟨h2, h3, h4, hrepl _ hcur⟩
    | added depth u rest =>
      refine ⟨h2, h3, h4, ?_⟩
      intro a ha
      simp only [exec, List.mem_append, List.mem_cons, List.mem_singleton, List.not_mem_nil,
        or_false] at ha
      rcases ha with (ha | rfl | ha) | rfl
      · exact hpre a ha
      · exact hcur
      · exact hpost a ha
      · have h1 : depth = 1 := hcur
        simp [Task.inert, h1]
    | exiting =>
      refine ⟨h2, h3, h4, ?_⟩
      intro a ha
      simp only [exec, List.mem_append] at ha
      rcases ha with ha | ha
      · exact hpre a ha
      · exact hpost a ha

theorem depthOne_reachable {f : Fetcher} {seed : String} {s : State}
    (h : Reachable f seed 1 s) : DepthOne f seed s :=
  Steps.preserves (depthOne_exec f seed) h (Or.inl ⟨rfl, rfl, rfl, rfl⟩)

/-- C11: in a traversal started with depth 1 on the empty map, whatever the
retrieval capability, seed and schedule: at every moment at most the seed has
been fetched, once; every goroutine not yet entered is the seed call or has
budget 0; a complete run has performed exactly one fetch, that of the seed,
has printed exactly one line, the found line of the seed on success and the
error message on failure, and has recorded exactly the content of the seed.
Every child of the seed call gets budget 0, and a call with budget 0 fetches
nothing, prints nothing, leaves the map alone and starts nothing. -/
theorem depth_one_traversal (f : Fetcher) (seed : String) (s : State)
    (h : Reachable f seed 1 s) :
    (s.fetches = [] ∨ s.fetches = [seed]) ∧
    (∀ u d, Task.start u d ∈ s.tasks → (u = seed ∧ d = 1 ∧ s.fetches = []) ∨ d = 0) ∧
    (s.complete →
      s.fetches = [seed] ∧
      ((f seed).err = none → s.lines = [.found seed (f seed).body]) ∧
      (∀ e, (f seed).err = some e → s.lines = [.error e]) ∧
      s.uc = [((f seed).body, (f seed).err.isNone)]) ∧
    (∀ c ∈ (Crawl seed 1 f []).children, c.2 = 0 ∧
      ∀ uc, Crawl c.1 c.2 f uc =
        { uc := uc, out := [], children := [], fetches := [], adds := 0, dones := 1 }) := by
  have hinv := depthOne_reachable h
  refine ⟨?_, ?_, ?_, ?_⟩
  · rcases hinv with ⟨-, -, -, h4⟩ | ⟨-, -, -, h4⟩ | ⟨-, -, h4, -⟩
    · exact Or.inl h4
    · exact Or.inr h4
    · exact Or.inr h4
  · intro u d hmem
    rcases hinv with ⟨h1, -, -, h4⟩ | ⟨h1, -, -, -⟩ | ⟨-, -, -, h5⟩
    · rw [h1] at hmem
      simp only [List.mem_singleton, Task.start.injEq] at hmem
      exact Or.inl ⟨hmem.1, hmem.2, h4⟩
    · rw [h1] at hmem
      simp at hmem
    · exact Or.inr (h5 _ hmem)
  · intro hc
    have hc' : s.tasks = [] := hc
    rcases hinv with ⟨h1, -⟩ | ⟨h1, -⟩ | ⟨h2, h3, h4, -⟩
    · rw [h1] at hc'
      simp at hc'
    · rw [h1] at hc'
      simp at hc'
    · refine ⟨h4, ?_, ?_, h2⟩
      · intro he
        simp [State.lines, h3, lineOf, he]
      · intro e he
        simp [State.lines, h3, lineOf, he]
  · intro c hc
    unfold Crawl at hc
    simp only [show ¬ ((1 : Int) ≤ 0) by decide, if_false] at hc
    split at hc
    · simp at hc
    · simp only [List.mem_map] at hc
      obtain ⟨u, -, rfl⟩ := hc
      refine ⟨by simp, fun uc => ?_⟩
      simp [Crawl]

/-- Witness for C11: the sample table with depth 1, run to completion. -/
theorem depth_one_traversal_witness :
    (runFirst fetcher.Fetch 12 (mainInit "https://golang.org/" 1)).complete ∧
    (runFirst fetcher.Fetch 12 (mainInit "https://golang.org/" 1)).fetches =
      ["https://golang.org/"] ∧
    (runFirst fetcher.Fetch 12 (mainInit "https://golang.org/" 1)).lines =
      [.found "https://golang.org/" "The Go Programming Language"] :=
  ⟨by decide,
    ((depth_one_traversal fetcher.Fetch "https://golang.org/" _
      (steps_runFirst fetcher.Fetch 12 _)).2.2.1 (by decide)).1,
    ((depth_one_traversal fetcher.Fetch "https://golang.org/" _
      (steps_runFirst fetcher.Fetch 12 _)).2.2.1 (by decide)).2.1 (by decide)⟩

/-! ## Claim C16: the depth bound -/

theorem reach_succ_of_link {f : Fetcher} {n : Nat} {seed u v : String}
    (hu : u ∈ reach f n seed) (hv : v ∈ (f u).urls) : v ∈ reach f (n + 1) seed := by
  simp only [reach, List.mem_flatMap]
  exact ⟨u, hu, hv⟩

theorem bounded_exec (f : Fetcher) (seed : String) (D : Int)
    (s : State) (pre : List Task) (t : Task) (post : List Task)
    (h : Bounded f seed D s) (ht : s.tasks = pre ++ t :: post) :
    Bounded f seed D (exec f s pre t post) := by
  obtain ⟨h1, h2, h3⟩ := h
  have hpre : ∀ a ∈ pre, a.within f seed D := fun a ha => h1 a (by rw [ht]; simp [ha])
  have hpost : ∀ a ∈ post, a.within f seed D := fun a ha => h1 a (by rw [ht]; simp [ha])
  have hcur : t.within f seed D := h1 t (by rw [ht]; simp)
  have hrepl : ∀ (t' : Task), t'.within f seed D → ∀ a ∈ pre ++ t' :: post,
      a.within f seed D := by
    intro t' ht' a ha
    simp only [List.mem_append, List.mem_cons] at ha
    rcases ha with ha | rfl | ha
    · exact hpre a ha
    · exact ht'
    · exact hpost a ha
  cases t with
  | start url depth =>
    obtain ⟨hd, hu⟩ := hcur
    simp only [exec]
    split
    · exact ⟨hrepl _ trivial, h2, h3⟩
    · rename_i hpos
      refine ⟨hrepl _ ⟨by omega, hd, hu, rfl⟩, ?_, h3⟩
      intro u hmem
      simp only [List.mem_append, List.mem_singleton] at hmem
      rcases hmem with hmem | rfl
      · exact h2 u hmem
      · exact ⟨(D - depth).toNat, by omega, hu⟩
  | fetched url depth r =>
    obtain ⟨hpos, hd, hu, hr⟩ := hcur
    rw [exec_fetched]
    refine ⟨?_, h2, ?_⟩
    · apply hrepl
      split
      · trivial
      · refine ⟨hpos, hd, fun v hv => ?_⟩
        rw [hr] at hv
        exact reach_succ_of_link hu hv
    · intro x hx u c hline
      simp only [List.mem_append] at hx
      rcases hx with hx | hx
      · exact h3 x hx u c hline
      · rw [locked_out_line url r s.uc x hx] at hline
        obtain ⟨-, hurl, -⟩ := lineOf_found hline
        rw [hurl]
        exact ⟨(D - depth).toNat, by omega, hu⟩
  | spawning depth urls =>
    obtain ⟨hpos, hd, hall⟩ := hcur
    cases urls with
    | nil => exact ⟨hrepl _ trivial, h2, h3⟩
    | cons u rest =>
      exact ⟨hrepl _ ⟨hpos, hd, hall u (by simp), fun v hv => hall v (by simp [hv])⟩, h2, h3⟩
  | added depth u rest =>
    obtain ⟨hpos, hd, hu, hall⟩ := hcur
    refine ⟨?_, h2, h3⟩
    intro a ha
    simp only [exec, List.mem_append, List.mem_cons, List.mem_singleton, List.not_mem_nil,
      or_false] at ha
    rcases ha with (ha | rfl | ha) | rfl
    · exact hpre a ha
    · exact ⟨hpos, hd, hall⟩
    · exact hpost a ha
    · have e : (D - (depth - 1)).toNat = (D - depth).toNat + 1 := by omega
      refine ⟨by omega, ?_⟩
      rw [e]
      exact hu
  | exiting =>
    refine ⟨?_, h2, h3⟩
    intro a ha
    simp only [exec, List.mem_append] at ha
    rcases ha with ha | ha
    · exact hpre a ha
    · exact hpost a ha

theorem bounded_reachable {f : Fetcher} {seed : String} {D : Int} {s : State}
    (h : Reachable f seed D s) : Bounded f seed D s := by
  refine Steps.preserves (bounded_exec f seed D) h ⟨?_, ?_, ?_⟩
  · intro t ht
    simp only [mainInit, List.mem_singleton] at ht
    subst ht
    exact ⟨le_refl _, by simp [reach]⟩
  · intro u hu
    simp [mainInit] at hu
  · intro r hr
    simp [mainInit] at hr

/-- C16: in a traversal started as `Crawl(seed, D)`, in every state, every
goroutine started and not yet entered is a call `Crawl(u, d)` with `d <= D`
whose id `u` is reached from the seed by a chain of exactly `D - d` links
returned by the fetcher; every id that has been fetched, and every id printed
in a found line, is reached from the seed by a chain of `n` links for some
`n <= D - 1`. -/
theorem depth_bound (f : Fetcher) (seed : String) (D : Int) (s : State)
    (h : Reachable f seed D s) :
    (∀ u d, Task.start u d ∈ s.tasks → d ≤ D ∧ u ∈ reach f (D - d).toNat seed) ∧
    (∀ u ∈ s.fetches, ∃ n : Nat, (n : Int) + 1 ≤ D ∧ u ∈ reach f n seed) ∧
    (∀ u c, Line.found u c ∈ s.lines → ∃ n : Nat, (n : Int) + 1 ≤ D ∧ u ∈ reach f n seed) := by
  obtain ⟨h1, h2, h3⟩ := bounded_reachable h
  refine ⟨fun u d hmem => h1 _ hmem, h2, ?_⟩
  intro u c hmem
  simp only [State.lines, List.mem_map] at hmem
  obtain ⟨r, hr, hline⟩ := hmem
  exact h3 r hr u c hline

/-- Witness for C16: a state of the sample traversal in which the children of
`https://golang.org/pkg/` have been started with budget 2. -/
theorem depth_bound_witness :
    Task.start "https://golang.org/pkg/os/" 2 ∈
      (runFirst fetcher.Fetch 24 (mainInit "https://golang.org/" 4)).tasks ∧
    ((2 : Int) ≤ 4 ∧
      "https://golang.org/pkg/os/" ∈ reach fetcher.Fetch ((4 : Int) - 2).toNat "https://golang.org/") :=
  ⟨by decide,
    (depth_bound fetcher.Fetch "https://golang.org/" 4 _ (steps_runFirst fetcher.Fetch 24 _)).1
      "https://golang.org/pkg/os/" 2 (by decide)⟩

/-! ## Claim C17: the found contents are those of the pages near the seed -/

/-- A chain of `n + 1` links from `seed` is a first link followed by a chain of
`n` links. -/
theorem mem_reach_succ_iff (f : Fetcher) (v : String) :
    ∀ (n : Nat) (seed : String),
      v ∈ reach f (n + 1) seed ↔ ∃ w ∈ (f seed).urls, v ∈ reach f n w
  | 0, seed => by simp [reach]
  | n + 1, seed => by
    constructor
    · intro h
      simp only [reach, List.mem_flatMap] at h
      obtain ⟨x, hx, hv⟩ := h
      have hx' : x ∈ reach f (n + 1) seed := by
        simp only [reach, List.mem_flatMap]
        exact hx
      obtain ⟨w, hw, hxw⟩ := (mem_reach_succ_iff f x n seed).1 hx'
      exact ⟨w, hw, reach_succ_of_link hxw hv⟩
    · rintro ⟨w, hw, h⟩
      simp only [reach, List.mem_flatMap] at h
      obtain ⟨x, hx, hv⟩ := h
      have hx' : x ∈ reach f (n + 1) seed := (mem_reach_succ_iff f x n seed).2 ⟨w, hw, hx⟩
      exact reach_succ_of_link hx' hv

/-- The contents of the tree of goroutines below `Crawl(seed, n)` are the
contents returned for the ids reached from `seed` by fewer than `n` links. -/
theorem mem_treeKeys_iff (f : Fetcher) (k : String) :
    ∀ (n : Nat) (seed : String),
      k ∈ treeKeys f n seed ↔ ∃ m, m < n ∧ ∃ v ∈ reach f m seed, (f v).body = k
  | 0, seed => by simp [treeKeys]
  | n + 1, seed => by
    simp only [treeKeys, List.mem_cons, List.mem_flatMap]
    constructor
    · rintro (rfl | ⟨w, hw, hk⟩)
      · exact ⟨0, Nat.succ_pos n, seed, by simp [reach], rfl⟩
      · obtain ⟨m, hm, v, hv, hb⟩ := (mem_treeKeys_iff f k n w).1 hk
        exact ⟨m + 1, Nat.succ_lt_succ hm, v, (mem_reach_succ_iff f v m seed).2 ⟨w, hw, hv⟩, hb⟩
    · rintro ⟨m, hm, v, hv, hb⟩
      cases m with
      | zero =>
        simp only [reach, List.mem_singleton] at hv
        subst hv
        exact Or.inl hb.symm
      | succ m =>
        obtain ⟨w, hw, hvw⟩ := (mem_reach_succ_iff f v m seed).1 hv
        exact Or.inr ⟨w, hw, (mem_treeKeys_iff f k n w).2 ⟨m, Nat.lt_of_succ_lt_succ hm, v, hvw, hb⟩⟩

theorem fakeFetcher.ok_iff_lookup (tbl : fakeFetcher) (u c : String) :
    ((tbl.Fetch u).err = none ∧ (tbl.Fetch u).body = c) ↔
      ∃ res, List.lookup u tbl = some res ∧ res.body = c := by
  unfold fakeFetcher.Fetch
  cases h : List.lookup u tbl with
  | none => simp
  | some res => simp

/-- C17: for every table of the stub fetcher in which no stored content is the
empty string, every seed, every depth `D` (in particular every `D >= 1`) and
every schedule: the contents carried by the found lines of a complete run
started by `main` on the empty map are exactly the contents stored in the
table for the ids reached from the seed by a chain of `n` links with
`n <= D - 1`. -/
theorem found_contents_complete (tbl : fakeFetcher) (hne : ∀ p ∈ tbl, p.2.body ≠ "")
    (seed : String) (D : Int) (s : State)
    (h : Reachable tbl.Fetch seed D s) (hc : s.complete) (c : String) :
    (∃ u, Line.found u c ∈ s.lines) ↔
      ∃ n : Nat, (n : Int) + 1 ≤ D ∧ ∃ u ∈ reach tbl.Fetch n seed,
        ∃ res, List.lookup u tbl = some res ∧ res.body = c := by
  have hdisj : ∀ u v, (tbl.Fetch u).err = none → (tbl.Fetch v).err ≠ none →
      (tbl.Fetch u).body ≠ (tbl.Fetch v).body := by
    intro u v hu hv
    rw [tbl.body_of_err v hv]
    exact tbl.body_of_ok hne u hu
  have ht : Traced tbl.Fetch (fun _ => True) s :=
    traced_reachable (fun _ _ _ _ => trivial) trivial h
  rw [found_iff_key ht hdisj c, ← mem_keys_iff_reported h c,
    keys_of_complete tbl.errNoLinks h hc c, mem_treeKeys_iff]
  constructor
  · rintro ⟨⟨m, hm, v, hv, hb⟩, u, hu, hub⟩
    refine ⟨m, by omega, v, hv, (tbl.ok_iff_lookup v c).1 ⟨?_, hb⟩⟩
    by_contra hv'
    exact hdisj u v hu hv' (by rw [hub, hb])
  · rintro ⟨n, hn, u, hu, hres⟩
    obtain ⟨he, hb⟩ := (tbl.ok_iff_lookup u c).2 hres
    exact ⟨⟨n, by omega, u, hu, hb⟩, u, he, hb⟩

set_option maxRecDepth 100000 in
/-- Witness for C17: the complete run of the sample traversal in which the
scheduler always picks the first task, and the content of a page two links
away from the seed. -/
theorem found_contents_complete_witness :
    (∀ p ∈ fetcher, p.2.body ≠ "") ∧
    (runFirst fetcher.Fetch 139 (mainInit "https://golang.org/" 4)).complete ∧
    ((∃ u, Line.found u "Package os" ∈
        (runFirst fetcher.Fetch 139 (mainInit "https://golang.org/" 4)).lines) ↔
      ∃ n : Nat, (n : Int) + 1 ≤ 4 ∧ ∃ u ∈ reach fetcher.Fetch n "https://golang.org/",
        ∃ res, List.lookup u fetcher = some res ∧ res.body = "Package os") :=
  ⟨by decide, by decide,
    found_contents_complete fetcher (by decide) "https://golang.org/" 4 _
      (steps_runFirst fetcher.Fetch 139 _) (by decide) "Package os"⟩

/-! ## The statement-level semantics and the interleaving semantics -/

theorem pick_length {α : Type} : ∀ (l : List α) (i : Nat) (p : List α × α × List α),
    pick l i = some p → p.1.length = i
  | [], _, _, h => by simp [pick] at h
  | a :: as, 0, p, h => by
    simp only [pick, Option.some.injEq] at h
    subst h; rfl
  | a :: as, i + 1, p, h => by
    simp only [pick, Option.map_eq_some'] at h
    obtain ⟨q, hq, rfl⟩ := h
    have := pick_length as i q hq
    simp [this]

theorem fsteps_frun (f : Fetcher) : ∀ (sched : List Nat) (F : FState), FSteps f F (frun f F sched)
  | [], F => FSteps.refl F
  | i :: is, F => by
    simp only [frun]
    cases h : fstep f F i with
    | none => simpa using fsteps_frun f is F
    | some G =>
      have h1 : FSteps f F G := FSteps.tail (FSteps.refl F) i h
      have h2 : FSteps f G (frun f G is) := fsteps_frun f is G
      have h3 : ∀ H, FSteps f G H → FSteps f F H := by
        intro H hH
        induction hH with
        | refl => exact h1
        | tail _ j hs ih => exact FSteps.tail ih j hs
      simpa using h3 _ h2

/-- The four kinds of statement-level action. -/
theorem fstep_cases {f : Fetcher} {F G : FState} {i : Nat} (h : fstep f F i = some G) :
    ∃ pre t post, F.st.tasks = pre ++ t :: post ∧ pre.length = i ∧
      ((F.held = none ∧ G = ⟨exec f F.st pre t post, none⟩ ∧
          ∀ url d r, t = .fetched url d r → F.st.uc.get r.body ≠ none) ∨
       (∃ url d r, F.held = none ∧ t = .fetched url d r ∧ F.st.uc.get r.body = none ∧
          G = ⟨firstOfPair r F.st, some i⟩) ∨
       (∃ url d r, F.held = some i ∧ t = .fetched url d r ∧
          G = ⟨secondOfPair url d r F.st pre post, none⟩) ∨
       (∃ hd, F.held = some hd ∧ (∀ url d r, t ≠ .fetched url d r) ∧
          G = ⟨exec f F.st pre t post,
            some (if t = .exiting ∧ i < hd then hd - 1 else hd)⟩)) := by
  simp only [fstep, Option.bind_eq_some] at h
  obtain ⟨p, hp, hx⟩ := h
  refine ⟨p.1, p.2.1, p.2.2, pick_eq _ _ _ hp, pick_length _ _ _ hp, ?_⟩
  obtain ⟨st, held⟩ := F
  generalize p.1 = pre at hx ⊢
  generalize p.2.2 = post at hx ⊢
  generalize p.2.1 = t at hx ⊢
  cases held with
  | none =>
    cases t with
    | fetched url d r =>
      simp only [fexec] at hx
      split at hx
      · rename_i hnone
        right; left
        exact ⟨url, d, r, rfl, rfl, hnone, (Option.some.inj hx).symm⟩
      · rename_i hsome
        left
        refine ⟨rfl, (Option.some.inj hx).symm, ?_⟩
        intro url' d' r' he
        injection he with _ _ hr
        subst hr
        exact hsome
    | start url d =>
      left
      exact ⟨rfl, (Option.some.inj hx).symm, fun _ _ _ he => by cases he⟩
    | spawning d urls =>
      left
      exact ⟨rfl, (Option.some.inj hx).symm, fun _ _ _ he => by cases he⟩
    | added d u rest =>
      left
      exact ⟨rfl, (Option.some.inj hx).symm, fun _ _ _ he => by cases he⟩
    | exiting =>
      left
      exact ⟨rfl, (Option.some.inj hx).symm, fun _ _ _ he => by cases he⟩
  | some hd =>
    cases t with
    | fetched url d r =>
      simp only [fexec] at hx
      split at hx
      · rename_i hi
        right; right; left
        subst hi
        exact ⟨url, d, r, rfl, rfl, (Option.some.inj hx).symm⟩
      · cases hx
    | start url d =>
      right; right; right
      refine ⟨hd, rfl, (fun _ _ _ he => by cases he), ?_⟩
      simp only [fexec] at hx
      rw [← Option.some.inj hx]
      simp
    | spawning d urls =>
      right; right; right
      refine ⟨hd, rfl, (fun _ _ _ he => by cases he), ?_⟩
      simp only [fexec] at hx
      rw [← Option.some.inj hx]
      simp
    | added d u rest =>
      right; right; right
      refine ⟨hd, rfl, (fun _ _ _ he => by cases he), ?_⟩
      simp only [fexec] at hx
      rw [← Option.some.inj hx]
      simp
    | exiting =>
      right; right; right
      refine ⟨hd, rfl, (fun _ _ _ he => by cases he), ?_⟩
      simp only [fexec] at hx
      rw [← Option.some.inj hx]
      simp

theorem firstOfPair_tasks (r : FetchResult) (s : State) : (firstOfPair r s).tasks = s.tasks := by
  unfold firstOfPair
  cases r.err <;> rfl

/-- An action that is not the locked section commutes with the first statement
of the pair of another goroutine. -/
theorem exec_firstOfPair (f : Fetcher) (r : FetchResult) (s : State) (pre post : List Task)
    (t : Task) (ht : ∀ url d r', t ≠ .fetched url d r') :
    exec f (firstOfPair r s) pre t post = firstOfPair r (exec f s pre t post) := by
  unfold firstOfPair
  cases t with
  | fetched url d r' => exact absurd rfl (ht url d r')
  | start url d =>
    simp only [exec]
    cases r.err <;> split <;> rfl
  | spawning d urls =>
    cases urls <;> cases r.err <;> rfl
  | added d u rest => cases r.err <;> rfl
  | exiting => cases r.err <;> rfl

/-- The two statements of the pair together are the locked section on a new key. -/
theorem secondOfPair_firstOfPair (f : Fetcher) (url : String) (d : Int) (r : FetchResult)
    (s : State) (pre post : List Task) (hnone : s.uc.get r.body = none) :
    secondOfPair url d r (firstOfPair r s) pre post = exec f s pre (.fetched url d r) post := by
  rw [exec_fetched]
  unfold secondOfPair firstOfPair locked
  rw [hnone]
  cases r.err <;> simp

/-- An action that is not the locked section leaves the map and the output alone. -/
theorem exec_uc_out (f : Fetcher) (s : State) (pre post : List Task) (t : Task)
    (ht : ∀ url d r, t ≠ .fetched url d r) :
    (exec f s pre t post).uc = s.uc ∧ (exec f s pre t post).out = s.out := by
  rcases exec_shared f s pre post t with ⟨url, d, r, he, -, -⟩ | ⟨-, h1, h2⟩
  · exact absurd he (ht url d r)
  · exact ⟨h1, h2⟩

/-- Where another goroutine `a` sits after an action of `t` that is not the
locked section. -/
theorem holder_after (pre post pre' post' : List Task) (a t : Task)
    (h : pre ++ a :: post = pre' ++ t :: post') (hne : a ≠ t) (repl extra : List Task) :
    ∃ pre2 post2, pre' ++ repl ++ post' ++ extra = pre2 ++ a :: post2 ∧
      pre2.length = if pre'.length < pre.length then pre.length - 1 + repl.length
        else pre.length := by
  rcases List.append_eq_append_iff.1 h with ⟨m, h1, h2⟩ | ⟨m, h1, h2⟩
  · cases m with
    | nil =>
      simp only [List.nil_append, List.cons.injEq] at h2
      exact absurd h2.1 hne
    | cons x mid =>
      simp only [List.cons_append, List.cons.injEq] at h2
      obtain ⟨rfl, rfl⟩ := h2
      refine ⟨pre, mid ++ repl ++ post' ++ extra, ?_, ?_⟩
      · rw [h1]
        simp
      · rw [h1]
        simp
  · cases m with
    | nil =>
      simp only [List.nil_append, List.cons.injEq] at h2
      exact absurd h2.1.symm hne
    | cons x mid =>
      simp only [List.cons_append, List.cons.injEq] at h2
      obtain ⟨rfl, rfl⟩ := h2
      refine ⟨pre' ++ repl ++ mid, post ++ extra, ?_, ?_⟩
      · simp
      · rw [h1]
        simp only [List.length_append, List.length_cons]
        split <;> omega

/-- The goroutines after an action that is not the locked section. -/
theorem exec_tasks_shape (f : Fetcher) (s : State) (pre post : List Task) (t : Task)
    (ht : ∀ url d r, t ≠ .fetched url d r) :
    ∃ repl extra, (exec f s pre t post).tasks = pre ++ repl ++ post ++ extra ∧
      repl.length = if t = .exiting then 0 else 1 := by
  cases t with
  | fetched url d r => exact absurd rfl (ht url d r)
  | start url d =>
    simp only [exec]
    split
    · exact ⟨[.exiting], [], by simp, by simp⟩
    · exact ⟨[.fetched url d (f url)], [], by simp, by simp⟩
  | spawning d urls =>
    cases urls with
    | nil => exact ⟨[.exiting], [], by simp [exec], by simp⟩
    | cons u rest => exact ⟨[.added d u rest], [], by simp [exec], by simp⟩
  | added d u rest => exact ⟨[.spawning d rest], [.start u (d - 1)], by simp [exec], by simp⟩
  | exiting => exact ⟨[], [], by simp [exec], by simp⟩

theorem finv_step {f : Fetcher} {seed : String} {depth : Int} {F G : FState} {i : Nat}
    (hinv : FInv f seed depth F) (h : fstep f F i = some G) : FInv f seed depth G := by
  obtain ⟨pre, t, post, hsplit, hlen, hcase⟩ := fstep_cases h
  rcases hcase with ⟨hheld, rfl, -⟩ | ⟨url, d, r, hheld, rfl, hnone, rfl⟩ |
    ⟨url, d, r, hheld, rfl, rfl⟩ | ⟨hd, hheld, hnf, rfl⟩
  · simp only [FInv, hheld] at hinv ⊢
    exact Steps.tail hinv _ (step_of_split hsplit)
  · simp only [FInv, hheld] at hinv ⊢
    exact ⟨F.st, pre, url, d, r, post, hinv, hsplit, hlen, hnone, rfl⟩
  · simp only [FInv, hheld] at hinv ⊢
    obtain ⟨s0, pre0, url0, d0, r0, post0, hr, hs0, hl0, hnone, hst⟩ := hinv
    have htasks : pre0 ++ Task.fetched url0 d0 r0 :: post0 = pre ++ Task.fetched url d r :: post := by
      rw [← hs0, ← hsplit, hst, firstOfPair_tasks]
    have hinj := List.append_inj htasks (by rw [hl0, hlen])
    obtain ⟨rfl, hrest⟩ := hinj
    simp only [List.cons.injEq, Task.fetched.injEq] at hrest
    obtain ⟨⟨rfl, rfl, rfl⟩, rfl⟩ := hrest
    rw [hst, secondOfPair_firstOfPair f url0 d0 r0 s0 pre0 post0 hnone]
    exact Steps.tail hr _ (step_of_split hs0)
  · simp only [FInv, hheld] at hinv ⊢
    obtain ⟨s0, pre0, url0, d0, r0, post0, hr, hs0, hl0, hnone, hst⟩ := hinv
    have hsplit0 : s0.tasks = pre ++ t :: post := by
      rw [← hsplit, hst, firstOfPair_tasks]
    obtain ⟨repl, extra, hshape, hrl⟩ := exec_tasks_shape f s0 pre post t hnf
    obtain ⟨pre2, post2, hpos, hlen2⟩ := holder_after pre0 post0 pre post
      (.fetched url0 d0 r0) t (by rw [← hs0, hsplit0]) (fun he => hnf url0 d0 r0 he.symm)
      repl extra
    refine ⟨exec f s0 pre t post, pre2, url0, d0, r0, post2,
      Steps.tail hr _ (step_of_split hsplit0), by rw [hshape, hpos], ?_, ?_, ?_⟩
    · rw [hlen2, hrl, hl0, hlen]
      by_cases hex : t = .exiting
      · simp only [hex, true_and, if_true]
        split <;> omega
      · simp only [hex, false_and, if_false]
        split <;> omega
    · rw [(exec_uc_out f s0 pre post t hnf).1]
      exact hnone
    · rw [hst, exec_firstOfPair f r0 s0 pre post t hnf]

theorem finv_reachable {f : Fetcher} {seed : String} {depth : Int} {F : FState}
    (h : FReachable f seed depth F) : FInv f seed depth F := by
  induction h with
  | refl => exact Steps.refl _
  | tail _ i hs ih => exact finv_step ih hs

/-- An entry of the map survives every statement-level action. -/
theorem fget_step {f : Fetcher} {seed : String} {depth : Int} {F G : FState} {i : Nat}
    (hinv : FInv f seed depth F) (h : fstep f F i = some G) (k : String) (b : Bool)
    (hk : F.st.uc.get k = some b) : G.st.uc.get k = some b := by
  obtain ⟨pre, t, post, hsplit, hlen, hcase⟩ := fstep_cases h
  rcases hcase with ⟨hheld, rfl, -⟩ | ⟨url, d, r, hheld, rfl, hnone, rfl⟩ |
    ⟨url, d, r, hheld, rfl, rfl⟩ | ⟨hd, hheld, hnf, rfl⟩
  · exact get_kept (Steps.single (step_of_split hsplit)) k b hk
  · have hne : k ≠ r.body := by
      rintro rfl
      rw [hnone] at hk
      simp at hk
    show (firstOfPair r F.st).uc.get k = some b
    unfold firstOfPair
    cases r.err with
    | none =>
      show (F.st.uc.set r.body true).get k = some b
      rw [urlCache.get_set_other F.st.uc true hne]
      exact hk
    | some e => exact hk
  · simp only [FInv, hheld] at hinv
    obtain ⟨s0, pre0, url0, d0, r0, post0, hr, hs0, hl0, hnone, hst⟩ := hinv
    have htasks : pre0 ++ Task.fetched url0 d0 r0 :: post0 = pre ++ Task.fetched url d r :: post := by
      rw [← hs0, ← hsplit, hst, firstOfPair_tasks]
    obtain ⟨rfl, hrest⟩ := List.append_inj htasks (by rw [hl0, hlen])
    simp only [List.cons.injEq, Task.fetched.injEq] at hrest
    obtain ⟨⟨rfl, rfl, rfl⟩, rfl⟩ := hrest
    show (secondOfPair url0 d0 r0 F.st pre0 post0).uc.get k = some b
    unfold secondOfPair
    cases he : r0.err with
    | none => exact hk
    | some e =>
      have huc : F.st.uc = s0.uc := by
        rw [hst]
        unfold firstOfPair
        rw [he]
      have hne : k ≠ r0.body := by
        rintro rfl
        rw [huc, hnone] at hk
        simp at hk
      show (F.st.uc.set r0.body false).get k = some b
      rw [urlCache.get_set_other F.st.uc false hne]
      exact hk
  · show (exec f F.st pre t post).uc.get k = some b
    rw [(exec_uc_out f F.st pre post t hnf).1]
    exact hk

theorem fget_kept {f : Fetcher} {seed : String} {depth : Int} {F G : FState}
    (hF : FReachable f seed depth F) (h : FSteps f F G) (k : String) (b : Bool)
    (hk : F.st.uc.get k = some b) : G.st.uc.get k = some b := by
  have key : FInv f seed depth G ∧ G.st.uc.get k = some b := by
    induction h with
    | refl => exact ⟨finv_reachable hF, hk⟩
    | tail _ i hs ih => exact ⟨finv_step ih.1 hs, fget_step ih.1 hs k b ih.2⟩
  exact key.2

/-! ## Claim C14: the entries of the map, statement by statement -/

/-- C14 (as amended): in every statement-level state of a traversal started by
`main` with the empty map, for every key `k`.  When no goroutine is between
the two statements of its pair (lines 32-33, lines 37-38): `uc.url[k]` is
`true` exactly when a found line with content `k` has been printed, and it is
`false` exactly when an error line has been printed by a task whose fetch
failed and returned the content `k`.  When goroutine number `i` is between the
two statements, the state is a state `s0` for which both equivalences hold,
in which the content of that goroutine is no key, changed by the first
statement of the pair only: the entry `true` written and the found line not
yet printed, or the error line printed and the entry `false` not yet written.
In every state an entry, once written, stays in the map with the same boolean
in every later state. -/
theorem visited_meaning_outside_pair (f : Fetcher) (seed : String) (depth : Int) (F : FState)
    (h : FReachable f seed depth F) (k : String) :
    (F.held = none →
      (F.st.uc.get k = some true ↔ ∃ u, Line.found u k ∈ F.st.lines) ∧
      (F.st.uc.get k = some false ↔
        ∃ u e, (f u).err = some e ∧ (f u).body = k ∧ (⟨k, .error e⟩ : Report) ∈ F.st.out)) ∧
    (∀ i, F.held = some i → ∃ s0 pre url d r post,
      pick F.st.tasks i = some (pre, .fetched url d r, post) ∧
      s0.uc.get r.body = none ∧ F.st = firstOfPair r s0 ∧
      (s0.uc.get k = some true ↔ ∃ u, Line.found u k ∈ s0.lines) ∧
      (s0.uc.get k = some false ↔
        ∃ u e, (f u).err = some e ∧ (f u).body = k ∧ (⟨k, .error e⟩ : Report) ∈ s0.out)) ∧
    (∀ G b, FSteps f F G → F.st.uc.get k = some b → G.st.uc.get k = some b) := by
  have hinv := finv_reachable h
  refine ⟨?_, ?_, fun G b hG hk => fget_kept h hG k b hk⟩
  · intro hheld
    simp only [FInv, hheld] at hinv
    have hm := visited_meaning_atomic f seed depth F.st hinv k
    exact ⟨hm.1, hm.2.1⟩
  · intro i hheld
    simp only [FInv, hheld] at hinv
    obtain ⟨s0, pre, url, d, r, post, hr, hs0, hl, hnone, hst⟩ := hinv
    have hm := visited_meaning_atomic f seed depth s0 hr k
    refine ⟨s0, pre, url, d, r, post, ?_, hnone, hst, hm.1, hm.2.1⟩
    rw [hst, firstOfPair_tasks, hs0, ← hl]
    exact pick_append pre _ post

/-- Witness for C14: the sample traversal after the seed task has fetched and
has run both statements of its pair. -/
theorem visited_meaning_outside_pair_witness :
    (frun fetcher.Fetch (finit "https://golang.org/" 4) [0, 0, 0]).held = none ∧
    ((frun fetcher.Fetch (finit "https://golang.org/" 4) [0, 0, 0]).st.uc.get
        "The Go Programming Language" = some true ↔
      ∃ u, Line.found u "The Go Programming Language" ∈
        (frun fetcher.Fetch (finit "https://golang.org/" 4) [0, 0, 0]).st.lines) :=
  ⟨by decide,
    ((visited_meaning_outside_pair fetcher.Fetch "https://golang.org/" 4 _
      (fsteps_frun fetcher.Fetch _ _) "The Go Programming Language").1 (by decide)).1⟩

/-- Counterexample to C14 as stated.  In the sample traversal, after the seed
task has run line 37 and before it runs line 38, the map holds
`The Go Programming Language -> true` and no line has been printed.  In the
traversal of depth 2, after the task of `https://golang.org/cmd/` has run line
32 and before it runs line 33, the error line is printed and the map has no
entry for the content `""` its fetch returned. -/
theorem entry_and_line_apart :
    FReachable fetcher.Fetch "https://golang.org/" 4
      (frun fetcher.Fetch (finit "https://golang.org/" 4) [0, 0]) ∧
    (frun fetcher.Fetch (finit "https://golang.org/" 4) [0, 0]).st.uc.get
      "The Go Programming Language" = some true ∧
    (frun fetcher.Fetch (finit "https://golang.org/" 4) [0, 0]).st.lines = [] ∧
    FReachable fetcher.Fetch "https://golang.org/" 2
      (frun fetcher.Fetch (finit "https://golang.org/" 2) (List.replicate 9 0 ++ [1, 1])) ∧
    (frun fetcher.Fetch (finit "https://golang.org/" 2) (List.replicate 9 0 ++ [1, 1])).st.lines =
      [.found "https://golang.org/" "The Go Programming Language",
       .error "not found: https://golang.org/cmd/"] ∧
    (fetcher.Fetch "https://golang.org/cmd/").body = "" ∧
    (frun fetcher.Fetch (finit "https://golang.org/" 2) (List.replicate 9 0 ++ [1, 1])).st.uc.get
      "" = none :=
  ⟨fsteps_frun _ _ _, by decide, by decide, fsteps_frun _ _ _, by decide, by decide, by decide⟩

end WebCrawler
